import Mathlib

/-!
Verification of the viam-modules/pizza-tracking object tracker.

This file shallowly embeds the Go sources of the tracker (the richer,
persistence-based variant in `tracker/`, together with the geometry and
filtering code shared with `object_tracker/`) and proves or refutes the
frozen claims about them.

Modelling conventions:
* Go `int`/`int64` values are `Int`; Go integer division truncates toward
  zero, which is `Int.tdiv`.
* Detection scores and cost-matrix entries are Go `float64`; the claims only
  compare them and test them against zero, so they are embedded as `ℚ`.
  In `PredictNextFrame` every `float64` operand is an integer value (the
  inputs are integer pixel rectangles), all operations on them are exact in
  float64 for any realistic image size, and the final `int(...)` conversions
  therefore recover exactly those integers; the function is embedded
  directly over `Int`.
* Fallible Go code is embedded in `Option`: a result of `none` models a Go
  runtime panic (index out of range, integer division by zero).
* Go maps with `string` keys are association lists with `List.lookup`;
  Go map iteration order is unspecified, so the one loop that ranges over a
  map of integer indices (`notUsed` in `RenameFromMatches`) is embedded as
  iteration in ascending index order.  No claim depends on that order.
* `GetTimestamp` reads the wall clock; it is embedded as an explicit `ts`
  argument threaded to the functions that call it.
-/

/-! ## Strings: underscore splitting and joining

Go's `strings.Split(s, "_")` and `strings.Join(l, "_")`, embedded at the
character-list level. -/

def splitChars : List Char → List (List Char)
  | [] => [[]]
  | c :: cs =>
    if c = '_' then [] :: splitChars cs
    else
      match splitChars cs with
      | [] => [[c]]
      | s :: ss => (c :: s) :: ss

def joinChars : List (List Char) → List Char
  | [] => []
  | [a] => a
  | a :: rest => a ++ '_' :: joinChars rest

def splitU (s : String) : List String :=
  (splitChars s.data).map String.mk

def joinU (l : List String) : String :=
  String.mk (joinChars (l.map String.data))

/-- Go `strings.ToLower`, restricted to ASCII (labels are ASCII class names). -/
def charLower (c : Char) : Char :=
  if 'A' ≤ c ∧ c ≤ 'Z' then Char.ofNat (c.toNat + 32) else c

def toLowerU (s : String) : String :=
  String.mk (s.data.map charLower)

/-! ## Decimal numerals: `strconv.Itoa` and `strconv.Atoi` -/

def digitChar (d : Nat) : Char := Char.ofNat (48 + d)

def natReprAux : Nat → Nat → List Char → List Char
  | 0, _, acc => acc
  | fuel + 1, n, acc =>
    if n < 10 then digitChar n :: acc
    else natReprAux fuel (n / 10) (digitChar (n % 10) :: acc)

def natReprU (n : Nat) : String := String.mk (natReprAux (n + 1) n [])

/-- Go `strconv.Itoa`. -/
def intReprU (i : Int) : String :=
  if i < 0 then "-" ++ natReprU (-i).toNat else natReprU i.toNat

def isDigitC (c : Char) : Bool := decide ('0' ≤ c) && decide (c ≤ '9')

def digitsVal (cs : List Char) : Nat :=
  cs.foldl (fun a c => 10 * a + (c.toNat - 48)) 0

def parseDigits (cs : List Char) : Option Nat :=
  if cs ≠ [] ∧ cs.all isDigitC then some (digitsVal cs) else none

/-- Go `strconv.Atoi`: optional sign followed by decimal digits.  (Go also
errors on 64-bit overflow; the embedding is over unbounded `Int`, and no
claim involves numerals near `2^63`.) -/
def goAtoi (s : String) : Option Int :=
  match s.data with
  | [] => none
  | '+' :: rest => (parseDigits rest).map (fun n => (n : Int))
  | '-' :: rest => (parseDigits rest).map (fun n => -(n : Int))
  | cs => (parseDigits cs).map (fun n => (n : Int))

/-! ## Geometry (`object_tracker/sort.go`) -/

structure Rect where
  minX : Int
  minY : Int
  maxX : Int
  maxY : Int
deriving DecidableEq, Repr

def Rect.dx (r : Rect) : Int := r.maxX - r.minX

def Rect.dy (r : Rect) : Int := r.maxY - r.minY

/-- Go `image.Rect`: swaps the coordinates when given in the wrong order. -/
def imageRect (x0 y0 x1 y1 : Int) : Rect :=
  ⟨if x1 < x0 then x1 else x0, if y1 < y0 then y1 else y0,
   if x1 < x0 then x0 else x1, if y1 < y0 then y0 else y1⟩

/-- `PredictNextFrame` from `object_tracker/sort.go`.  The Go function runs
over `float64`, but every operand is an integer value and every operation is
exact, so the embedding works directly over `Int`; the Go integer divisions
`(a+b)/2` and `Dx()/2` truncate toward zero (`Int.tdiv`). -/
def PredictNextFrame (old curr : Rect) : Rect :=
  let oldCX := Int.tdiv (old.minX + old.maxX) 2
  let oldCY := Int.tdiv (old.minY + old.maxY) 2
  let currCX := Int.tdiv (curr.minX + curr.maxX) 2
  let currCY := Int.tdiv (curr.minY + curr.maxY) 2
  let newCx := currCX + (currCX - oldCX)
  let newCy := currCY + (currCY - oldCY)
  let hw := Int.tdiv curr.dx 2
  let hh := Int.tdiv curr.dy 2
  imageRect (newCx - hw) (newCy - hh) (newCx + hw) (newCy + hh)

/-! ## Detections, classifications, tracks (`tracker/track.go`) -/

structure Classification where
  label : String
  score : ℚ
deriving DecidableEq, Repr

structure Detection where
  bbox : Rect
  score : ℚ
  label : String
deriving DecidableEq, Repr

structure track where
  Det : Detection
  detClassification : Option Classification
  persistenceLimit : Int
  persistenceCount : Int
  stable : Bool
deriving DecidableEq, Repr

/-- `newTrack` from `tracker/track.go`. -/
def newTrack (det : Detection) (lim : Int) : track :=
  ⟨det, none, lim, 0, false⟩

/-- `newTracks` from `tracker/track.go`. -/
def newTracks (dets : List Detection) (lim : Int) : List track :=
  dets.map (fun d => newTrack d lim)

/-- `addPersistence` from `tracker/track.go` (mutation embedded as a
function from the old track to the new one). -/
def addPersistence (tr : track) : track :=
  if tr.stable then tr
  else
    let tr1 := { tr with persistenceCount := tr.persistenceCount + 1 }
    if tr1.persistenceLimit ≤ tr1.persistenceCount then { tr1 with stable := true }
    else tr1

/-- `n` successive `addPersistence` calls (the only operation that evolves
the persistence fields of a live track). -/
def iterAddPersistence (tr : track) : Nat → track
  | 0 => tr
  | n + 1 => addPersistence (iterAddPersistence tr n)

/-- `getStableDetections` from `tracker/track.go`. -/
def getStableDetections (tracks : List track) : List Detection :=
  (tracks.filter (fun tr => tr.stable)).map (fun tr => tr.Det)

/-! ## Stabilized-object log entries (`tracker/track.go`) -/

structure trackedObject where
  FullLabel : String
  Label : String
  Id : Int
  Time : String
deriving DecidableEq, Repr

/-- `newTrackedObjectFromLabel` from `tracker/track.go`.
`none` models the Go panic when `parts[1]` is indexed out of range;
`some (.error _)` is the returned (loggable) error from `strconv.Atoi`;
`parts[0]` is always in range because `strings.Split` never returns an
empty slice, so it is read with `headD`. -/
def newTrackedObjectFromLabel (label : String) : Option (Except String trackedObject) :=
  let parts := splitU label
  match parts[1]? with
  | none => none
  | some p1 =>
    match goAtoi p1 with
    | none => some (Except.error ("unable to parse label " ++ label))
    | some id => some (Except.ok ⟨label, parts.headD "", id, joinU (parts.drop 2)⟩)

/-! ## Detection filter (`object_tracker/filter.go`) -/

/-- `NewAdvancedFilter` from `object_tracker/filter.go` (the returned
postprocessor, applied to its argument).  `chosenLabels` is the Go
`map[string]float64`, embedded as an association list. -/
def NewAdvancedFilter (chosenLabels : List (String × ℚ)) (detections : List Detection) :
    List Detection :=
  if chosenLabels.length < 1 then detections
  else
    detections.filter fun d =>
      let baseLabel := toLowerU ((splitU d.label).headD "")
      match List.lookup baseLabel chosenLabels with
      | some minConf => decide (minConf < d.score)
      | none => false

/-- Modelled from the spec: `objdet.NewScoreFilter` is rdk library code not
present in the sources; per the spec the global confidence test is
inclusive — accept iff score ≥ `min_confidence`. -/
def NewScoreFilter (conf : ℚ) (dets : List Detection) : List Detection :=
  dets.filter (fun d => decide (conf ≤ d.score))

/-- `FilterDetections` from `object_tracker/filter.go`. -/
def FilterDetections (chosenLabels : List (String × ℚ)) (dets : List Detection)
    (conf : ℚ) : List Detection :=
  NewScoreFilter conf (NewAdvancedFilter chosenLabels dets)

/-- The acceptance predicate exactly as claim C5 words it (spec side of the
refinement; to be compared with `FilterDetections`). -/
def acceptsC5 (chosenLabels : List (String × ℚ)) (conf : ℚ) (d : Detection) : Bool :=
  if chosenLabels.isEmpty then decide (conf ≤ d.score)
  else
    match List.lookup (toLowerU ((splitU d.label).headD "")) chosenLabels with
    | some m => decide (m < d.score) && decide (conf ≤ d.score)
    | none => false

/-! ## Tracker state: class counter and per-identity track histories -/

def ccInsert (k : String) (v : Int) : List (String × Int) → List (String × Int)
  | [] => [(k, v)]
  | (k', v') :: rest => if k' = k then (k, v) :: rest else (k', v') :: ccInsert k v rest

def tmInsert (k : String) (v : List track) :
    List (String × List track) → List (String × List track)
  | [] => [(k, v)]
  | (k', v') :: rest => if k' = k then (k, v) :: rest else (k', v') :: tmInsert k v rest

def tmDelete (k : String) : List (String × List track) → List (String × List track)
  | [] => []
  | (k', v') :: rest => if k' = k then rest else (k', v') :: tmDelete k rest

/-- The parts of `myTracker`'s state that the renaming step reads and
writes: `classCounter : map[string]int` and `tracks : map[string][]*track`. -/
structure TrackerState where
  classCounter : List (String × Int)
  tracks : List (String × List track)
deriving DecidableEq, Repr

/-! ## Label handling (the richer variant's label file) -/

/-- `ReplaceLabel`: rebuild the detection with the same bounding box and
score but a new label, in a clone of the track. -/
def ReplaceLabel (tr : track) (label : String) : track :=
  { tr with Det := { tr.Det with label := label } }

/-- `ReplaceBoundingBox`: rebuild the detection with a new bounding box but
the same score and label, in a clone of the track. -/
def ReplaceBoundingBox (tr : track) (bb : Rect) : track :=
  { tr with Det := { tr.Det with bbox := bb } }

/-- Modelled from the spec: `track.addClassificationToLabel` is called from
`UpdateTrack` but its definition is not among the sources.  Per the spec's
label grammar `class_N[_YYYYMMDD_HHMMSS[_classification]]`,
"re-classification rewrites only the trailing component; the TrackId prefix
is immutable": keep the first four underscore components and set the
classification component. -/
def addClassificationToLabel (tr : track) (clsLabel : String) : track :=
  ReplaceLabel tr (joinU ((splitU tr.Det.label).take 4 ++ [clsLabel]))

/-- The `class_N` identity prefix: `strings.Join(strings.Split(l,"_")[0:2],"_")`.
`none` models the Go panic when the label has fewer than two components
(slicing `[0:2]` out of range). -/
def trackIdOf (label : String) : Option String :=
  let parts := splitU label
  if 2 ≤ parts.length then some (joinU (parts.take 2)) else none

/-- `getTrackingLabel` from the richer variant's label file. -/
def getTrackingLabel (tr : track) : Option String :=
  trackIdOf tr.Det.label

/-- `RenameFirstTime` from the richer variant's label file.  `ts` is the
`GetTimestamp()` wall-clock string. -/
def RenameFirstTime (st : TrackerState) (ts : String) (det : track) : track × TrackerState :=
  let baseLabel := toLowerU ((splitU det.Det.label).headD "")
  let classCounter1 :=
    match List.lookup baseLabel st.classCounter with
    | none => ccInsert baseLabel 0 st.classCounter
    | some c => ccInsert baseLabel (c + 1) st.classCounter
  let cnt := (List.lookup baseLabel classCounter1).getD 0
  let countLabel := baseLabel ++ "_" ++ intReprU cnt
  let label :=
    match det.detClassification with
    | some c => countLabel ++ "_" ++ ts ++ "_" ++ c.label
    | none => countLabel ++ "_" ++ ts
  let out := ReplaceLabel det label
  (out, ⟨classCounter1, tmInsert countLabel [out] st.tracks⟩)

/-- Any finite sequence of births: `RenameFirstTime` applied to each
detection in turn, threading the tracker state. -/
def mintAll (ts : String) : List track → TrackerState → List track × TrackerState
  | [], st => ([], st)
  | d :: ds, st =>
    let r := RenameFirstTime st ts d
    let rs := mintAll ts ds r.2
    (r.1 :: rs.1, rs.2)

/-- `UpdateTrack` from the richer variant's label file: clone the old
matched track, replace its bounding box with the next detection's, add a
persistence tick, rewrite the trailing classification component when the
next detection carries a classification, append to the history and report
whether the track just became stable. -/
def UpdateTrack (st : TrackerState) (nextTrack oldMatchedTrack : track) :
    Option (track × Bool × TrackerState) :=
  let wasStable := oldMatchedTrack.stable
  let nt0 := addPersistence (ReplaceBoundingBox oldMatchedTrack nextTrack.Det.bbox)
  let nt :=
    match nextTrack.detClassification with
    | some c => addClassificationToLabel nt0 c.label
    | none => nt0
  match getTrackingLabel nt with
  | none => none
  | some countLabel =>
    let tracks1 :=
      match List.lookup countLabel st.tracks with
      | some slice => tmInsert countLabel (slice ++ [nt]) st.tracks
      | none => st.tracks
    some (nt, wasStable != nt.stable, ⟨st.classCounter, tracks1⟩)

/-! ## The rename step (`RenameFromMatches`, richer variant) -/

/-- The partial-to-full classification guard in `RenameFromMatches`: both
classifications present, old track stable and classified "partial", new
detection classified "full". -/
def classifGuard (oldT newT : track) : Bool :=
  match oldT.detClassification, newT.detClassification with
  | some co, some cn => oldT.stable && (co.label == "partial") && (cn.label == "full")
  | _, _ => false

/-- Accumulator of the match loop in `RenameFromMatches`: the
`updatedTracks` and `newlyStableTracks` slices, the `notUsed` index set
(kept in ascending order) and the tracker state. -/
structure MatchAcc where
  updated : List track
  newlyStable : List track
  notUsed : List Nat
  st : TrackerState
deriving DecidableEq, Repr

/-- The first loop of `RenameFromMatches`: walk `matches` (row `oldIdx`
matched to column `newIdx`), and for each accepted match update the old
track and delete the column from `notUsed`.  Mirrors the Go branch order:
`newIdx != -1`, then the cost-matrix access `matchinMtx[oldIdx][newIdx]`
(panic when out of range, including negative `newIdx ≠ -1`), then the
nonzero-cost test, then the bounds test, then the classification guard. -/
def matchLoop (mtx : List (List ℚ)) (oldDets newDets : List track) :
    Nat → List Int → MatchAcc → Option MatchAcc
  | _, [], acc => some acc
  | oldIdx, newIdx :: rest, acc =>
    if newIdx = -1 then matchLoop mtx oldDets newDets (oldIdx + 1) rest acc
    else if newIdx < 0 then none
    else
      match mtx[oldIdx]? with
      | none => none
      | some row =>
        match row[newIdx.toNat]? with
        | none => none
        | some cost =>
          if cost = 0 then matchLoop mtx oldDets newDets (oldIdx + 1) rest acc
          else if h : newIdx.toNat < newDets.length ∧ oldIdx < oldDets.length then
            let oldT := oldDets.get ⟨oldIdx, h.2⟩
            let newT := newDets.get ⟨newIdx.toNat, h.1⟩
            if classifGuard oldT newT then
              matchLoop mtx oldDets newDets (oldIdx + 1) rest acc
            else
              match UpdateTrack acc.st newT oldT with
              | none => none
              | some (u, newly, st1) =>
                matchLoop mtx oldDets newDets (oldIdx + 1) rest
                  { updated := if newly then acc.updated else acc.updated ++ [u]
                    newlyStable := if newly then acc.newlyStable ++ [u] else acc.newlyStable
                    notUsed := acc.notUsed.erase newIdx.toNat
                    st := st1 }
          else matchLoop mtx oldDets newDets (oldIdx + 1) rest acc

/-- The second loop of `RenameFromMatches`: mint a fresh identity for every
still-unmatched new detection.  Go iterates the `notUsed` map in an
unspecified order; embedded in ascending index order. -/
def freshLoop (ts : String) (newDets : List track) :
    List Nat → TrackerState → Option (List track × TrackerState)
  | [], st => some ([], st)
  | idx :: rest, st =>
    match newDets[idx]? with
    | none => none
    | some d =>
      let r := RenameFirstTime st ts d
      match freshLoop ts newDets rest r.2 with
      | none => none
      | some (os, st2) => some (r.1 :: os, st2)

/-- `RenameFromMatches` from the richer variant's label file: returns the
`(updatedTracks, newlyStableTracks, freshTracks)` triple and the final
tracker state. -/
def RenameFromMatches (st : TrackerState) (ts : String) (ms : List Int)
    (mtx : List (List ℚ)) (oldDets newDets : List track) :
    Option (List track × List track × List track × TrackerState) :=
  match matchLoop mtx oldDets newDets 0 ms
      ⟨[], [], List.range newDets.length, st⟩ with
  | none => none
  | some acc =>
    match freshLoop ts newDets acc.notUsed acc.st with
    | none => none
    | some (fresh, st2) => some (acc.updated, acc.newlyStable, fresh, st2)

/-! ## The lost-track computation in `run` (`tracker/tracker.go`) -/

/-- The lost-detections loop of `run`: a row of `lastDetections` counts as
lost exactly when `matches[idx] == -1`; stable lost tracks are collected
for the buffer, unstable ones have their history deleted from `tracks`.
`none` models the Go panic when `matches` is shorter than
`lastDetections`, or when an unstable lost track's label has fewer than two
components. -/
def lostLoop (st : TrackerState) : List track → List Int → Nat →
    Option (List track × TrackerState)
  | [], _, _ => some ([], st)
  | tr :: rest, ms, idx =>
    match ms[idx]? with
    | none => none
    | some m =>
      if m = -1 then
        if tr.stable then
          match lostLoop st rest ms (idx + 1) with
          | none => none
          | some (l, st1) => some (tr :: l, st1)
        else
          match getTrackingLabel tr with
          | none => none
          | some cl => lostLoop ⟨st.classCounter, tmDelete cl st.tracks⟩ rest ms (idx + 1)
      else lostLoop st rest ms (idx + 1)

/-- What the lost loop actually collects, spelled out: the rows whose
`matches` entry is `-1` and whose track is stable. -/
def lostSpecFrom (ms : List Int) : Nat → List track → List track
  | _, [] => []
  | idx, tr :: rest =>
    if ms.getD idx 0 = -1 ∧ tr.stable then tr :: lostSpecFrom ms (idx + 1) rest
    else lostSpecFrom ms (idx + 1) rest

/-! ## The lost-tracks buffer (`tracker/tracker.go`) -/

structure tracksBuffer where
  detections : List (List track)
  size : Int
deriving DecidableEq, Repr

/-- `newTracksBuffer` from `tracker/tracker.go`. -/
def newTracksBuffer (size : Int) : tracksBuffer := ⟨[], size⟩

/-- The inner dedup scan of `AppendDets`: remove the first entry of the
slot whose `class_N` prefix equals `countLabel` (the Go loop breaks after
the first removal in each slot).  `none` models the Go panic on a label
with fewer than two components. -/
def removeFirstWithId (countLabel : String) : List track → Option (List track)
  | [] => some []
  | d :: ds =>
    match getTrackingLabel d with
    | none => none
    | some oldCountLabel =>
      if oldCountLabel = countLabel then some ds
      else
        match removeFirstWithId countLabel ds with
        | none => none
        | some rest => some (d :: rest)

/-- One pass of the dedup loop: remove `countLabel` from every slot, in
slot order. -/
def dedupSlots (countLabel : String) : List (List track) → Option (List (List track))
  | [] => some []
  | slot :: rest =>
    match removeFirstWithId countLabel slot with
    | none => none
    | some slot2 =>
      match dedupSlots countLabel rest with
      | none => none
      | some rest2 => some (slot2 :: rest2)

/-- The dedup loop of `AppendDets`: for each appended track, remove its
`class_N` prefix from every existing slot. -/
def dedupLoop : List track → List (List track) → Option (List (List track))
  | [], slots => some slots
  | d :: ds, slots =>
    match getTrackingLabel d with
    | none => none
    | some countLabel =>
      match dedupSlots countLabel slots with
      | none => none
      | some slots1 => dedupLoop ds slots1

/-- `AppendDets` from `tracker/tracker.go`: drop the oldest slot when the
buffer is at capacity, de-duplicate the appended identities out of the
remaining slots, and push the appended list as the newest slot. -/
def AppendDets (b : tracksBuffer) (newDets : List track) : Option tracksBuffer :=
  let dets0 := if (b.detections.length : Int) = b.size then b.detections.drop 1
               else b.detections
  match dedupLoop newDets dets0 with
  | none => none
  | some dets1 => some ⟨dets1 ++ [newDets], b.size⟩

/-- A track's `class_N` prefix with a junk default (used only to state
identity sets of well-formed buffers). -/
def trackIdD (tr : track) : String := (getTrackingLabel tr).getD ""

def slotIds (slot : List track) : List String := slot.map trackIdD

def bufIds (slots : List (List track)) : List String := (slots.map slotIds).flatten

/-- Every track in every slot has a well-formed (two-component) label. -/
def SlotsWF (slots : List (List track)) : Prop :=
  ∀ slot ∈ slots, ∀ tr ∈ slot, (getTrackingLabel tr).isSome = true

/-- Every track of the list has a well-formed (two-component) label. -/
def DetsWF (dets : List track) : Prop :=
  ∀ tr ∈ dets, (getTrackingLabel tr).isSome = true

/-- The lost-buffer invariant: at most `size` slots, well-formed labels,
and no `class_N` identity occurring twice across all entries of all
slots. -/
def BufGood (b : tracksBuffer) : Prop :=
  (b.detections.length : Int) ≤ b.size ∧ SlotsWF b.detections ∧ (bufIds b.detections).Nodup

/-! ## `DoCommand` benchmark (`tracker/tracker.go`) -/

structure benchmark where
  Slowest : Int
  Fastest : Int
  Average : Int
  NumberOfRuns : Int
deriving DecidableEq, Repr

/-- The benchmark computation of `DoCommand`.  `timeStats` are tick
durations in nanoseconds (`time.Duration`); `tmin` starts at
`10*time.Second`, `tmax` at `10*time.Nanosecond`.  `none` models the Go
panic `integer divide by zero` in `int64(sum) / n` when no tick has
completed. -/
def benchOf (timeStats : List Int) : Option benchmark :=
  let n : Int := timeStats.length
  let acc := timeStats.foldl
    (fun (a : Int × Int × Int) tt =>
      ((if tt < a.1 then tt else a.1),
       (if a.2.1 < tt then tt else a.2.1),
       a.2.2 + tt))
    (10 * 1000000000, 10, 0)
  if n = 0 then none
  else some ⟨acc.2.1, acc.1, Int.tdiv acc.2.2 n, n⟩

/-- `DoCommand` from `tracker/tracker.go`, restricted to the two recognized
keys: the `benchmark` and `logs` entries of the returned map (absent keys
are `none`). -/
def DoCommand (benchCmd logsCmd : Bool) (timeStats : List Int)
    (logs : List trackedObject) :
    Option (Option benchmark × Option (List trackedObject)) :=
  if benchCmd then
    match benchOf timeStats with
    | none => none
    | some b => some (some b, if logsCmd then some logs else none)
  else some (none, if logsCmd then some logs else none)

/-- The claim-C4 comparison, as the claim words it: the label's second
underscore component parses as an integer `N` with `N` strictly below the
class counter of the label's first component. -/
def labelIndexLtCounter (tr : track) (cc : List (String × Int)) : Bool :=
  match (splitU tr.Det.label)[1]? with
  | none => false
  | some comp =>
    match goAtoi comp with
    | none => false
    | some n =>
      match List.lookup ((splitU tr.Det.label).headD "") cc with
      | none => false
      | some c => decide (n < c)

/-- No character of the string is an underscore. -/
def NoUnd (s : String) : Prop := ∀ c ∈ s.data, c ≠ '_'

/-! ## Invariant statements used by the claims -/

/-- The per-track persistence invariant. -/
def PersistInv (lim : Int) (tr : track) : Prop :=
  tr.persistenceLimit = lim ∧ 0 ≤ tr.persistenceCount ∧ tr.persistenceCount ≤ lim ∧
    (tr.stable = true ↔ lim ≤ tr.persistenceCount)

/-- Pointwise domination of class counters: every key present in the first
is present in the second with a value at least as large. -/
def ccLE (cc cc2 : List (String × Int)) : Prop :=
  ∀ k v, List.lookup k cc = some v → ∃ v', List.lookup k cc2 = some v' ∧ v ≤ v'

/-- The conditions under which the match-loop step for row `r` with column
value `j ≥ 0` leaves the accumulator untouched (without panicking): the
cost cell exists and is either zero, or out of the detection bounds, or
caught by the partial-to-full classification guard. -/
def StepSkips (mtx : List (List ℚ)) (oldDets newDets : List track) (r : Nat) (j : Int) :
    Prop :=
  0 ≤ j ∧ ∃ row, mtx[r]? = some row ∧ ∃ c, row[j.toNat]? = some c ∧
    (c = 0 ∨ ∀ (h1 : j.toNat < newDets.length) (h2 : r < oldDets.length),
      classifGuard (oldDets.get ⟨r, h2⟩) (newDets.get ⟨j.toNat, h1⟩) = true)


/-! # Helper lemmas -/

theorem addPersistence_limit_eq (tr : track) :
    (addPersistence tr).persistenceLimit = tr.persistenceLimit := by
  unfold addPersistence
  dsimp only
  split
  · rfl
  · split <;> rfl

theorem addPersistence_count_le (tr : track) :
    tr.persistenceCount ≤ (addPersistence tr).persistenceCount := by
  unfold addPersistence
  dsimp only
  split
  · exact le_refl _
  · split <;> simp

theorem addPersistence_stable_of_stable (tr : track) (h : tr.stable = true) :
    (addPersistence tr).stable = true := by
  unfold addPersistence
  rw [h]
  simpa using h

theorem persistInv_addPersistence (lim : Int) (tr : track)
    (_hp : 0 < lim) (h : PersistInv lim tr) : PersistInv lim (addPersistence tr) := by
  obtain ⟨hl, h0, hle, hiff⟩ := h
  unfold addPersistence PersistInv
  dsimp only
  by_cases hs : tr.stable = true
  · rw [hs]
    simp only [if_true]
    exact ⟨hl, h0, hle, hiff⟩
  · have hs' : tr.stable = false := by simp at hs; exact hs
    rw [hs']
    simp only [Bool.false_eq_true, if_false]
    have hcount : tr.persistenceCount < lim := by
      rcases lt_or_ge tr.persistenceCount lim with h' | h'
      · exact h'
      · exact absurd (hiff.mpr h') (by simp [hs'])
    split
    · rename_i hcross
      simp only at hcross ⊢
      rw [hl] at hcross
      refine ⟨hl, by omega, by omega, by simp; omega⟩
    · rename_i hno
      simp only at hno ⊢
      rw [hl] at hno
      refine ⟨hl, by omega, by omega, ?_⟩
      simp only [Bool.false_eq_true, false_iff]
      omega

theorem persistInv_iter (det : Detection) (lim : Int) (hp : 0 < lim) (n : Nat) :
    PersistInv lim (iterAddPersistence (newTrack det lim) n) := by
  induction n with
  | zero =>
    refine ⟨rfl, le_refl 0, le_of_lt hp, ?_⟩
    simp [newTrack, iterAddPersistence]
    omega
  | succ n ih => exact persistInv_addPersistence lim _ hp ih

/-- C3: a track born by `newTrack` with a positive persistence limit and
evolved by any sequence of `addPersistence` calls keeps a non-negative,
monotone non-decreasing persistence count that never exceeds the limit;
its stable flag never flips back from true; and after every call the flag
holds exactly when the count has reached the limit. -/
theorem c3_persistence_invariants (det : Detection) (lim : Int) (h : 0 < lim) (n : Nat) :
    0 ≤ (iterAddPersistence (newTrack det lim) n).persistenceCount ∧
    (iterAddPersistence (newTrack det lim) n).persistenceCount ≤
      (iterAddPersistence (newTrack det lim) (n + 1)).persistenceCount ∧
    (iterAddPersistence (newTrack det lim) n).persistenceCount ≤ lim ∧
    ((iterAddPersistence (newTrack det lim) n).stable = true →
      (iterAddPersistence (newTrack det lim) (n + 1)).stable = true) ∧
    ((iterAddPersistence (newTrack det lim) n).stable = true ↔
      lim ≤ (iterAddPersistence (newTrack det lim) n).persistenceCount) := by
  obtain ⟨hl, h0, hle, hiff⟩ := persistInv_iter det lim h n
  exact ⟨h0, addPersistence_count_le _, hle,
    addPersistence_stable_of_stable _, hiff⟩

/-- Witness for C3 at a concrete track and limit. -/
theorem c3_persistence_invariants_witness :
    (0 : Int) < 2 ∧
    (0 ≤ (iterAddPersistence (newTrack ⟨⟨0, 0, 10, 10⟩, 1, "cat"⟩ 2) 3).persistenceCount ∧
      (iterAddPersistence (newTrack ⟨⟨0, 0, 10, 10⟩, 1, "cat"⟩ 2) 3).persistenceCount ≤
        (iterAddPersistence (newTrack ⟨⟨0, 0, 10, 10⟩, 1, "cat"⟩ 2) (3 + 1)).persistenceCount ∧
      (iterAddPersistence (newTrack ⟨⟨0, 0, 10, 10⟩, 1, "cat"⟩ 2) 3).persistenceCount ≤ 2 ∧
      ((iterAddPersistence (newTrack ⟨⟨0, 0, 10, 10⟩, 1, "cat"⟩ 2) 3).stable = true →
        (iterAddPersistence (newTrack ⟨⟨0, 0, 10, 10⟩, 1, "cat"⟩ 2) (3 + 1)).stable = true) ∧
      ((iterAddPersistence (newTrack ⟨⟨0, 0, 10, 10⟩, 1, "cat"⟩ 2) 3).stable = true ↔
        2 ≤ (iterAddPersistence (newTrack ⟨⟨0, 0, 10, 10⟩, 1, "cat"⟩ 2) 3).persistenceCount)) :=
  ⟨by decide, c3_persistence_invariants ⟨⟨0, 0, 10, 10⟩, 1, "cat"⟩ 2 (by decide) 3⟩

theorem tdiv_two_mul (k : Int) : Int.tdiv (2 * k) 2 = k := by
  rw [mul_comm]
  exact Int.mul_tdiv_cancel k (by decide)

/-- C7 counterexample: on a rectangle of odd width (here 11), the predicted
rectangle's width is `2*(11/2) = 10`, not 11, so `PredictNextFrame` does
not always return a rectangle with exactly the same width and height as
`curr`. -/
theorem c7_predict_cex :
    (PredictNextFrame ⟨0, 0, 11, 10⟩ ⟨0, 0, 11, 10⟩).dx = 10 ∧
    Rect.dx ⟨0, 0, 11, 10⟩ = 11 := by decide

/-- C7 amended: for every pair of rectangles with `curr` canonical,
`PredictNextFrame prev curr` returns a rectangle whose width and height
are `2*(curr.Dx()/2)` and `2*(curr.Dy()/2)` — one pixel less than `curr`
when the width or height is odd, exactly equal when even — and whose
corner sum (twice its center) is `2*c'` for
`c' = 2*⌊curr_center⌋ - ⌊prev_center⌋`, the one-step linear extrapolation
of the truncating-integer-division centers the Go code computes. -/
theorem c7_predict_amended (old curr : Rect)
    (hx : curr.minX ≤ curr.maxX) (hy : curr.minY ≤ curr.maxY) :
    (PredictNextFrame old curr).dx = 2 * Int.tdiv curr.dx 2 ∧
    (PredictNextFrame old curr).dy = 2 * Int.tdiv curr.dy 2 ∧
    (PredictNextFrame old curr).minX + (PredictNextFrame old curr).maxX =
      2 * (2 * Int.tdiv (curr.minX + curr.maxX) 2 - Int.tdiv (old.minX + old.maxX) 2) ∧
    (PredictNextFrame old curr).minY + (PredictNextFrame old curr).maxY =
      2 * (2 * Int.tdiv (curr.minY + curr.maxY) 2 - Int.tdiv (old.minY + old.maxY) 2) ∧
    (2 ∣ curr.dx → (PredictNextFrame old curr).dx = curr.dx) ∧
    (2 ∣ curr.dy → (PredictNextFrame old curr).dy = curr.dy) := by
  have hwx : 0 ≤ Int.tdiv (curr.maxX - curr.minX) 2 :=
    Int.tdiv_nonneg (by omega) (by omega)
  have hwy : 0 ≤ Int.tdiv (curr.maxY - curr.minY) 2 :=
    Int.tdiv_nonneg (by omega) (by omega)
  have hevx : 2 ∣ curr.maxX - curr.minX → 2 * Int.tdiv (curr.maxX - curr.minX) 2 =
      curr.maxX - curr.minX := by
    intro h
    obtain ⟨k, hk⟩ := h
    rw [hk, tdiv_two_mul]
  have hevy : 2 ∣ curr.maxY - curr.minY → 2 * Int.tdiv (curr.maxY - curr.minY) 2 =
      curr.maxY - curr.minY := by
    intro h
    obtain ⟨k, hk⟩ := h
    rw [hk, tdiv_two_mul]
  unfold PredictNextFrame imageRect Rect.dx Rect.dy
  dsimp only
  rw [if_neg (by omega), if_neg (by omega)]
  refine ⟨by omega, by omega, by omega, by omega, ?_, ?_⟩
  · intro h
    have := hevx h
    omega
  · intro h
    have := hevy h
    omega

/-- Witness for C7 amended at concrete rectangles of odd width and height
(the dimensions shrink by one pixel) and an odd-centered `prev`. -/
theorem c7_predict_amended_witness :
    ((0 : Int) ≤ 11 ∧ (0 : Int) ≤ 7) ∧
    ((PredictNextFrame ⟨2, 3, 5, 8⟩ ⟨0, 0, 11, 7⟩).dx = 2 * Int.tdiv (Rect.dx ⟨0, 0, 11, 7⟩) 2 ∧
      (PredictNextFrame ⟨2, 3, 5, 8⟩ ⟨0, 0, 11, 7⟩).dy = 2 * Int.tdiv (Rect.dy ⟨0, 0, 11, 7⟩) 2 ∧
      (PredictNextFrame ⟨2, 3, 5, 8⟩ ⟨0, 0, 11, 7⟩).minX +
          (PredictNextFrame ⟨2, 3, 5, 8⟩ ⟨0, 0, 11, 7⟩).maxX =
        2 * (2 * Int.tdiv (0 + 11) 2 - Int.tdiv (2 + 5) 2) ∧
      (PredictNextFrame ⟨2, 3, 5, 8⟩ ⟨0, 0, 11, 7⟩).minY +
          (PredictNextFrame ⟨2, 3, 5, 8⟩ ⟨0, 0, 11, 7⟩).maxY =
        2 * (2 * Int.tdiv (0 + 7) 2 - Int.tdiv (3 + 8) 2) ∧
      ((2 : Int) ∣ Rect.dx ⟨0, 0, 11, 7⟩ →
        (PredictNextFrame ⟨2, 3, 5, 8⟩ ⟨0, 0, 11, 7⟩).dx = Rect.dx ⟨0, 0, 11, 7⟩) ∧
      ((2 : Int) ∣ Rect.dy ⟨0, 0, 11, 7⟩ →
        (PredictNextFrame ⟨2, 3, 5, 8⟩ ⟨0, 0, 11, 7⟩).dy = Rect.dy ⟨0, 0, 11, 7⟩)) :=
  ⟨⟨by decide, by decide⟩,
    c7_predict_amended ⟨2, 3, 5, 8⟩ ⟨0, 0, 11, 7⟩ (by decide) (by decide)⟩

/-- C5: `FilterDetections` is exactly the order-preserving filter by the
claimed acceptance predicate: with empty `chosen_labels` accept iff
`min_confidence ≤ score`; otherwise accept iff the lowercased first
underscore component of the label is a configured class, the score is
strictly above that class's threshold, and the score passes the inclusive
global test. -/
theorem c5_filterDetections_exact (cl : List (String × ℚ)) (dets : List Detection)
    (conf : ℚ) :
    FilterDetections cl dets conf = dets.filter (acceptsC5 cl conf) := by
  unfold FilterDetections NewScoreFilter NewAdvancedFilter acceptsC5
  cases cl with
  | nil => simp
  | cons x xs =>
    simp only [List.length_cons, List.isEmpty_cons]
    have h1 : ¬ (xs.length + 1 < 1) := by omega
    rw [if_neg h1]
    rw [List.filter_filter]
    apply List.filter_congr
    intro d _
    cases h : List.lookup (toLowerU ((splitU d.label).headD "")) (x :: xs) with
    | none => simp [h]
    | some m => simp [h, Bool.and_comm]

/-- C8 (the code bug): `DoCommand` with a `benchmark` key divides the
duration sum by the number of completed ticks without guarding zero; with
an empty `time_stats` (no tick completed yet) the Go code panics with an
integer division by zero — embedded as `none` — instead of returning the
timing statistics; with at least one tick it succeeds. -/
theorem c8_benchmark_div_by_zero :
    DoCommand true false [] [] = none ∧ benchOf [] = none ∧
    benchOf [20, 30] = some ⟨30, 20, 25, 2⟩ := ⟨rfl, rfl, rfl⟩

/-- C9 (the code bug): `newTrackedObjectFromLabel` indexes `parts[1]`
unguarded, so a label with fewer than two underscore components makes the
Go code panic with an index-out-of-range — embedded as `none` — rather
than producing a loggable error value; a non-numeric second component does
produce the mere error value, and a well-formed label parses. -/
theorem c9_label_parse_panics :
    newTrackedObjectFromLabel "cat" = none ∧
    newTrackedObjectFromLabel "cat_x" =
      some (Except.error "unable to parse label cat_x") ∧
    newTrackedObjectFromLabel "cat_7_20240101_000000" =
      some (Except.ok ⟨"cat_7_20240101_000000", "cat", 7, "20240101_000000"⟩) :=
  ⟨rfl, rfl, rfl⟩

/-! ### String splitting lemmas -/

theorem mk_data (s : String) : String.mk s.data = s := by
  cases s
  rfl

theorem splitChars_ne_nil (l : List Char) : splitChars l ≠ [] := by
  induction l with
  | nil => simp [splitChars]
  | cons c cs ih =>
    unfold splitChars
    split
    · simp
    · cases h : splitChars cs with
      | nil => simp
      | cons s ss => simp

theorem splitChars_append_und (a b : List Char) (ha : ∀ c ∈ a, c ≠ '_') :
    splitChars (a ++ '_' :: b) = a :: splitChars b := by
  induction a with
  | nil => simp [splitChars]
  | cons c a ih =>
    have hc : c ≠ '_' := ha c (List.mem_cons_self c a)
    have ha' : ∀ x ∈ a, x ≠ '_' := fun x hx => ha x (List.mem_cons_of_mem c hx)
    simp only [List.cons_append]
    conv_lhs => rw [splitChars]
    rw [if_neg hc, ih ha']

theorem mem_splitChars_no_und (l : List Char) :
    ∀ s ∈ splitChars l, ∀ c ∈ s, c ≠ '_' := by
  induction l with
  | nil =>
    intro s hs
    simp [splitChars] at hs
    simp [hs]
  | cons c cs ih =>
    intro s hs
    unfold splitChars at hs
    by_cases hc : c = '_'
    · rw [if_pos hc] at hs
      rcases List.mem_cons.mp hs with h | h
      · simp [h]
      · exact ih s h
    · rw [if_neg hc] at hs
      cases hsplit : splitChars cs with
      | nil => exact absurd hsplit (splitChars_ne_nil cs)
      | cons s0 ss =>
        rw [hsplit] at hs
        rcases List.mem_cons.mp hs with h | h
        · subst h
          intro x hx
          rcases List.mem_cons.mp hx with h' | h'
          · rw [h']; exact hc
          · exact ih s0 (by rw [hsplit]; exact List.mem_cons_self s0 ss) x h'
        · exact ih s (by rw [hsplit]; exact List.mem_cons_of_mem s0 h)

theorem splitChars_self_no_und (l : List Char) (h : ∀ c ∈ l, c ≠ '_') :
    splitChars l = [l] := by
  induction l with
  | nil => rfl
  | cons c cs ih =>
    have hc : c ≠ '_' := h c (List.mem_cons_self c cs)
    conv_lhs => rw [splitChars]
    rw [if_neg hc, ih (fun x hx => h x (List.mem_cons_of_mem c hx))]

theorem noUnd_mem_splitU (s : String) : ∀ t ∈ splitU s, NoUnd t := by
  intro t ht
  unfold splitU at ht
  obtain ⟨cs, hcs, hmk⟩ := List.mem_map.mp ht
  intro c hc
  subst hmk
  exact mem_splitChars_no_und s.data cs hcs c hc

theorem noUnd_headD_splitU (s : String) : NoUnd ((splitU s).headD "") := by
  cases h : splitU s with
  | nil =>
    intro c hc
    exact absurd hc (List.not_mem_nil c)
  | cons t ts =>
    simp only [List.headD]
    exact noUnd_mem_splitU s t (by rw [h]; exact List.mem_cons_self t ts)

theorem charLower_ne_und (c : Char) (h : c ≠ '_') : charLower c ≠ '_' := by
  unfold charLower
  split
  · rename_i hc
    obtain ⟨h1, h2⟩ := hc
    rw [Char.le_def] at h1 h2
    have hl : 65 ≤ c.toNat := h1
    have hr : c.toNat ≤ 90 := h2
    interval_cases h : c.toNat <;> decide
  · exact h

theorem noUnd_toLowerU (s : String) (h : NoUnd s) : NoUnd (toLowerU s) := by
  intro c hc
  unfold toLowerU at hc
  obtain ⟨c0, hc0, hmap⟩ := List.mem_map.mp hc
  subst hmap
  exact charLower_ne_und c0 (h c0 hc0)

theorem digitChar_ne_und (d : Nat) (h : d < 10) : digitChar d ≠ '_' := by
  unfold digitChar
  interval_cases d <;> decide

theorem natReprAux_no_und (fuel : Nat) :
    ∀ n acc, (∀ c ∈ acc, c ≠ '_') → ∀ c ∈ natReprAux fuel n acc, c ≠ '_' := by
  induction fuel with
  | zero =>
    intro n acc hacc c hc
    exact hacc c hc
  | succ fuel ih =>
    intro n acc hacc c hc
    unfold natReprAux at hc
    by_cases h10 : n < 10
    · rw [if_pos h10] at hc
      rcases List.mem_cons.mp hc with h | h
      · rw [h]; exact digitChar_ne_und n h10
      · exact hacc c h
    · rw [if_neg h10] at hc
      refine ih (n / 10) _ ?_ c hc
      intro x hx
      rcases List.mem_cons.mp hx with h | h
      · rw [h]; exact digitChar_ne_und (n % 10) (Nat.mod_lt n (by omega))
      · exact hacc x h

theorem noUnd_natReprU (n : Nat) : NoUnd (natReprU n) := by
  intro c hc
  exact natReprAux_no_und (n + 1) n [] (by simp) c hc

theorem noUnd_intReprU (i : Int) : NoUnd (intReprU i) := by
  unfold intReprU
  split
  · intro c hc
    rcases List.mem_append.mp hc with h | h
    · simp at h
      rw [h]
      decide
    · exact noUnd_natReprU _ c h
  · exact noUnd_natReprU _

theorem data_append (a b : String) : (a ++ b).data = a.data ++ b.data := rfl

theorem splitU_joinU_data (l : List String) :
    (joinU l).data = joinChars (l.map String.data) := rfl

theorem noUnd_splitU_self (s : String) (h : NoUnd s) : splitU s = [s] := by
  unfold splitU
  rw [splitChars_self_no_und s.data h]
  simp [mk_data]

/-- Splitting a string of the shape `base_mid_tail` where `base` and `mid`
contain no underscore yields `base`, `mid`, and then the components of
`tail`. -/
theorem splitU_triple (base mid tail : String) (hb : NoUnd base) (hm : NoUnd mid) :
    splitU (base ++ "_" ++ mid ++ "_" ++ tail) = base :: mid :: splitU tail := by
  unfold splitU
  have hdata : (base ++ "_" ++ mid ++ "_" ++ tail).data =
      base.data ++ '_' :: (mid.data ++ '_' :: tail.data) := by
    simp [data_append]
  rw [hdata, splitChars_append_und _ _ hb, splitChars_append_und _ _ hm]
  simp [mk_data]

/-! ### Class-counter lemmas -/

theorem lookup_ccInsert_self (l : List (String × Int)) (k : String) (v : Int) :
    List.lookup k (ccInsert k v l) = some v := by
  induction l with
  | nil => simp [ccInsert, List.lookup]
  | cons p rest ih =>
    obtain ⟨k', v'⟩ := p
    unfold ccInsert
    by_cases h : k' = k
    · rw [if_pos h]
      simp [List.lookup]
    · rw [if_neg h]
      have hbeq : (k == k') = false := by
        simp
        exact fun he => h he.symm
      simp [List.lookup, hbeq, ih]

theorem lookup_ccInsert_ne (l : List (String × Int)) (k k' : String) (v : Int)
    (h : k' ≠ k) : List.lookup k' (ccInsert k v l) = List.lookup k' l := by
  induction l with
  | nil =>
    have hbeq : (k' == k) = false := by simp [h]
    simp [ccInsert, List.lookup, hbeq]
  | cons p rest ih =>
    obtain ⟨k0, v0⟩ := p
    unfold ccInsert
    by_cases h0 : k0 = k
    · subst h0
      rw [if_pos rfl]
      have hbeq : (k' == k0) = false := by simp [h]
      simp [List.lookup, hbeq]
    · rw [if_neg h0]
      by_cases h1 : k' = k0
      · subst h1
        simp [List.lookup]
      · have hbeq1 : (k' == k0) = false := by simp [h1]
        simp [List.lookup, hbeq1, ih]

theorem str_ext {a b : String} (h : a.data = b.data) : a = b := by
  cases a
  cases b
  cases h
  rfl

theorem ccLE_refl (cc : List (String × Int)) : ccLE cc cc :=
  fun k v h => ⟨v, h, le_refl v⟩

theorem ccLE_trans {a b c : List (String × Int)} (h1 : ccLE a b) (h2 : ccLE b c) :
    ccLE a c := by
  intro k v h
  obtain ⟨v1, hl1, hle1⟩ := h1 k v h
  obtain ⟨v2, hl2, hle2⟩ := h2 k v1 hl1
  exact ⟨v2, hl2, le_trans hle1 hle2⟩

theorem ccLE_renameFirstTime (st : TrackerState) (ts : String) (det : track) :
    ccLE st.classCounter (RenameFirstTime st ts det).2.classCounter := by
  unfold RenameFirstTime
  dsimp only
  intro k v h
  cases hlook : List.lookup (toLowerU ((splitU det.Det.label).headD "")) st.classCounter with
  | none =>
    dsimp only
    by_cases hk : k = toLowerU ((splitU det.Det.label).headD "")
    · rw [hk] at h
      rw [h] at hlook
      exact absurd hlook (by simp)
    · rw [lookup_ccInsert_ne _ _ _ _ hk]
      exact ⟨v, h, le_refl v⟩
  | some c =>
    dsimp only
    by_cases hk : k = toLowerU ((splitU det.Det.label).headD "")
    · subst hk
      rw [h] at hlook
      obtain rfl : v = c := by injection hlook
      rw [lookup_ccInsert_self]
      exact ⟨v + 1, rfl, by omega⟩
    · rw [lookup_ccInsert_ne _ _ _ _ hk]
      exact ⟨v, h, le_refl v⟩

theorem ccLE_mintAll (ts : String) (dets : List track) (st : TrackerState) :
    ccLE st.classCounter (mintAll ts dets st).2.classCounter := by
  induction dets generalizing st with
  | nil => exact ccLE_refl _
  | cons d ds ih =>
    unfold mintAll
    dsimp only
    exact ccLE_trans (ccLE_renameFirstTime st ts d) (ih _)

/-- The label minted by `RenameFirstTime` splits into the lowercased base
class, the decimal representation of the stored counter value, and the
rest; and the updated counter holds exactly that value for the base. -/
theorem renameFirstTime_shape (st : TrackerState) (ts : String) (det : track) :
    ∃ (cnt : Int) (rest : List String),
      splitU (RenameFirstTime st ts det).1.Det.label =
        toLowerU ((splitU det.Det.label).headD "") :: intReprU cnt :: rest ∧
      List.lookup (toLowerU ((splitU det.Det.label).headD ""))
        (RenameFirstTime st ts det).2.classCounter = some cnt := by
  unfold RenameFirstTime ReplaceLabel
  dsimp only
  have hbase : NoUnd (toLowerU ((splitU det.Det.label).headD "")) :=
    noUnd_toLowerU _ (noUnd_headD_splitU det.Det.label)
  cases hlook : List.lookup (toLowerU ((splitU det.Det.label).headD "")) st.classCounter with
  | none =>
    dsimp only
    rw [lookup_ccInsert_self]
    dsimp only [Option.getD]
    refine ⟨0, ?_⟩
    cases hcl : det.detClassification with
    | none =>
      exact ⟨splitU ts, splitU_triple _ _ ts hbase (noUnd_intReprU 0), rfl⟩
    | some c =>
      refine ⟨splitU (ts ++ "_" ++ c.label), ?_, rfl⟩
      dsimp only
      have he : (toLowerU ((splitU det.Det.label).headD "") ++ "_" ++ intReprU 0 ++ "_" ++ ts
          ++ "_" ++ c.label) = (toLowerU ((splitU det.Det.label).headD "") ++ "_" ++
          intReprU 0 ++ "_" ++ (ts ++ "_" ++ c.label)) :=
        str_ext (by simp [data_append])
      rw [he]
      exact splitU_triple _ _ _ hbase (noUnd_intReprU 0)
  | some c0 =>
    dsimp only
    rw [lookup_ccInsert_self]
    dsimp only [Option.getD]
    refine ⟨c0 + 1, ?_⟩
    cases hcl : det.detClassification with
    | none =>
      exact ⟨splitU ts, splitU_triple _ _ ts hbase (noUnd_intReprU (c0 + 1)), rfl⟩
    | some c =>
      refine ⟨splitU (ts ++ "_" ++ c.label), ?_, rfl⟩
      dsimp only
      have he : (toLowerU ((splitU det.Det.label).headD "") ++ "_" ++ intReprU (c0 + 1) ++ "_"
          ++ ts ++ "_" ++ c.label) = (toLowerU ((splitU det.Det.label).headD "") ++ "_" ++
          intReprU (c0 + 1) ++ "_" ++ (ts ++ "_" ++ c.label)) :=
        str_ext (by simp [data_append])
      rw [he]
      exact splitU_triple _ _ _ hbase (noUnd_intReprU (c0 + 1))

/-- C4 counterexample: at the first birth of a class the code sets
`classCounter[class] = 0` and mints index 0, so the freshly published
track's label index is not strictly below the class counter (`0 < 0`
fails); the counter equals the just-used index. -/
theorem c4_counter_cex :
    labelIndexLtCounter
        (RenameFirstTime ⟨[], []⟩ "20240101_000000" (newTrack ⟨⟨0, 0, 10, 10⟩, 1, "cat"⟩ 2)).1
        (RenameFirstTime ⟨[], []⟩ "20240101_000000"
          (newTrack ⟨⟨0, 0, 10, 10⟩, 1, "cat"⟩ 2)).2.classCounter = false ∧
    (RenameFirstTime ⟨[], []⟩ "20240101_000000"
        (newTrack ⟨⟨0, 0, 10, 10⟩, 1, "cat"⟩ 2)).1.Det.label = "cat_0_20240101_000000" ∧
    List.lookup "cat"
        (RenameFirstTime ⟨[], []⟩ "20240101_000000"
          (newTrack ⟨⟨0, 0, 10, 10⟩, 1, "cat"⟩ 2)).2.classCounter = some 0 := by
  refine ⟨by decide, by decide, by decide⟩

/-- C4 amended: for every sequence of births, every minted track's label
parses as `class_N_...` with `N ≤ class_counter[class]` in the final
counter state: the counter holds the most recently used index for the
class (0 at the first birth, incremented at every later birth), not the
next unused one. -/
theorem c4_label_counter_amended (ts : String) (dets : List track) (st : TrackerState) :
    ∀ tr ∈ (mintAll ts dets st).1,
      ∃ (cls : String) (n c : Int) (rest : List String),
        splitU tr.Det.label = cls :: intReprU n :: rest ∧
        List.lookup cls (mintAll ts dets st).2.classCounter = some c ∧ n ≤ c := by
  induction dets generalizing st with
  | nil =>
    intro tr htr
    exact absurd htr (by simp [mintAll])
  | cons d ds ih =>
    intro tr htr
    unfold mintAll at htr ⊢
    dsimp only at htr ⊢
    rcases List.mem_cons.mp htr with h | h
    · subst h
      obtain ⟨cnt, rest, hsplit, hlook⟩ := renameFirstTime_shape st ts d
      obtain ⟨c, hc, hle⟩ := ccLE_mintAll ts ds (RenameFirstTime st ts d).2 _ cnt hlook
      exact ⟨_, cnt, c, rest, hsplit, hc, hle⟩
    · exact ih _ tr h

/-- Witness for C4 amended: a concrete two-birth sequence. -/
theorem c4_label_counter_amended_witness :
    (⟨⟨⟨0, 0, 10, 10⟩, 1, "cat_0_ts"⟩, none, 2, 0, false⟩ : track) ∈
      (mintAll "ts" [newTrack ⟨⟨0, 0, 10, 10⟩, 1, "cat"⟩ 2,
        newTrack ⟨⟨20, 20, 30, 30⟩, 1, "cat"⟩ 2] ⟨[], []⟩).1 ∧
    (∃ (cls : String) (n c : Int) (rest : List String),
      splitU (⟨⟨⟨0, 0, 10, 10⟩, 1, "cat_0_ts"⟩, none, 2, 0, false⟩ : track).Det.label =
        cls :: intReprU n :: rest ∧
      List.lookup cls
        (mintAll "ts" [newTrack ⟨⟨0, 0, 10, 10⟩, 1, "cat"⟩ 2,
          newTrack ⟨⟨20, 20, 30, 30⟩, 1, "cat"⟩ 2] ⟨[], []⟩).2.classCounter = some c ∧
      n ≤ c) :=
  ⟨by decide,
    c4_label_counter_amended "ts"
      [newTrack ⟨⟨0, 0, 10, 10⟩, 1, "cat"⟩ 2, newTrack ⟨⟨20, 20, 30, 30⟩, 1, "cat"⟩ 2]
      ⟨[], []⟩ _ (by decide)⟩

/-! ### C10: UpdateTrack frame lemmas -/

theorem addPersistence_Det_eq (tr : track) : (addPersistence tr).Det = tr.Det := by
  unfold addPersistence
  dsimp only
  split
  · rfl
  · split <;> rfl

theorem addPersistence_detClassification_eq (tr : track) :
    (addPersistence tr).detClassification = tr.detClassification := by
  unfold addPersistence
  dsimp only
  split
  · rfl
  · split <;> rfl

theorem splitU_joinU_append (l : List String) (b : String) (hl : ∀ a ∈ l, NoUnd a) :
    splitU (joinU (l ++ [b])) = l ++ splitU b := by
  induction l with
  | nil =>
    have hb : joinU ([] ++ [b]) = b := by
      unfold joinU joinChars
      exact mk_data b
    rw [hb]
    rfl
  | cons a l2 ih =>
    have ha : NoUnd a := hl a (List.mem_cons_self a l2)
    have hl2 : ∀ x ∈ l2, NoUnd x := fun x hx => hl x (List.mem_cons_of_mem a hx)
    have hdata : (joinU ((a :: l2) ++ [b])).data = a.data ++ '_' :: (joinU (l2 ++ [b])).data := by
      cases l2 with
      | nil => rfl
      | cons x t => rfl
    unfold splitU
    rw [hdata, splitChars_append_und _ _ ha]
    simp only [List.map_cons, mk_data, List.cons_append]
    rw [show (splitChars (joinU (l2 ++ [b])).data).map String.mk = splitU (joinU (l2 ++ [b]))
      from rfl]
    rw [ih hl2]
    rfl

theorem trackIdOf_addCls (label cls : String) (h2 : 2 ≤ (splitU label).length) :
    trackIdOf (joinU ((splitU label).take 4 ++ [cls])) = trackIdOf label := by
  have helts : ∀ a ∈ (splitU label).take 4, NoUnd a :=
    fun a ha => noUnd_mem_splitU label a (List.take_subset 4 _ ha)
  unfold trackIdOf
  rw [splitU_joinU_append _ _ helts]
  have hlen4 : 2 ≤ ((splitU label).take 4).length := by
    rw [List.length_take]
    omega
  have hlen : 2 ≤ (((splitU label).take 4) ++ splitU cls).length := by
    rw [List.length_append]
    omega
  rw [if_pos hlen, if_pos h2]
  have htake : (((splitU label).take 4) ++ splitU cls).take 2 = (splitU label).take 2 := by
    rw [List.take_append_eq_append_take]
    have hz : 2 - ((splitU label).take 4).length = 0 := by omega
    rw [hz]
    simp [List.take_take]
  rw [htake]

/-- C10: an accepted match updates a track through `UpdateTrack` by
changing only the bounding box (to the new detection's), the persistence
counter with its stable flag, and the trailing classification label
component: the updated track keeps the previous track's detection
confidence score, its `class_N` TrackId prefix, its persistence limit and
its stored classification; when the new detection carries no
classification even the label is byte-for-byte unchanged.  Hence the score
published for an identity is the score recorded when the identity was
created, never the new detection's score. -/
theorem c10_updateTrack_frame (st : TrackerState) (nextTrack oldMatchedTrack : track)
    (res : track × Bool × TrackerState)
    (h : UpdateTrack st nextTrack oldMatchedTrack = some res)
    (h2 : 2 ≤ (splitU oldMatchedTrack.Det.label).length) :
    res.1.Det.score = oldMatchedTrack.Det.score ∧
    trackIdOf res.1.Det.label = trackIdOf oldMatchedTrack.Det.label ∧
    res.1.Det.bbox = nextTrack.Det.bbox ∧
    res.1.persistenceLimit = oldMatchedTrack.persistenceLimit ∧
    res.1.detClassification = oldMatchedTrack.detClassification ∧
    (nextTrack.detClassification = none →
      res.1.Det.label = oldMatchedTrack.Det.label) := by
  have hDet : (addPersistence (ReplaceBoundingBox oldMatchedTrack nextTrack.Det.bbox)).Det =
      ⟨nextTrack.Det.bbox, oldMatchedTrack.Det.score, oldMatchedTrack.Det.label⟩ := by
    rw [addPersistence_Det_eq]
    rfl
  have hLim : (addPersistence (ReplaceBoundingBox oldMatchedTrack
      nextTrack.Det.bbox)).persistenceLimit = oldMatchedTrack.persistenceLimit := by
    rw [addPersistence_limit_eq]
    rfl
  have hCls : (addPersistence (ReplaceBoundingBox oldMatchedTrack
      nextTrack.Det.bbox)).detClassification = oldMatchedTrack.detClassification := by
    rw [addPersistence_detClassification_eq]
    rfl
  unfold UpdateTrack at h
  cases hcl : nextTrack.detClassification with
  | none =>
    rw [hcl] at h
    dsimp only at h
    cases hg : getTrackingLabel
        (addPersistence (ReplaceBoundingBox oldMatchedTrack nextTrack.Det.bbox)) with
    | none =>
      rw [hg] at h
      exact absurd h (by simp)
    | some cl =>
      rw [hg] at h
      dsimp only at h
      obtain rfl := Option.some.inj h
      refine ⟨by rw [hDet], by rw [hDet], by rw [hDet], hLim, hCls, fun _ => by rw [hDet]⟩
  | some c =>
    rw [hcl] at h
    dsimp only at h
    cases hg : getTrackingLabel (addClassificationToLabel
        (addPersistence (ReplaceBoundingBox oldMatchedTrack nextTrack.Det.bbox)) c.label) with
    | none =>
      rw [hg] at h
      exact absurd h (by simp)
    | some cl =>
      rw [hg] at h
      dsimp only at h
      obtain rfl := Option.some.inj h
      unfold addClassificationToLabel ReplaceLabel
      dsimp only
      rw [hDet]
      refine ⟨rfl, ?_, rfl, hLim, hCls, fun hno => ?_⟩
      · exact trackIdOf_addCls oldMatchedTrack.Det.label c.label h2
      · exact Option.noConfusion hno

/-- Witness for C10 at a concrete accepted match. -/
theorem c10_updateTrack_frame_witness :
    (UpdateTrack ⟨[], []⟩
        ⟨⟨⟨1, 1, 11, 11⟩, (1 : ℚ) / 2, "cat"⟩, some ⟨"full", 1⟩, 2, 0, false⟩
        ⟨⟨⟨0, 0, 10, 10⟩, 1, "cat_0_20240101_000000"⟩, none, 2, 0, false⟩ =
      some (⟨⟨⟨1, 1, 11, 11⟩, 1, "cat_0_20240101_000000_full"⟩, none, 2, 1, false⟩, false,
        ⟨[], []⟩) ∧
      2 ≤ (splitU ("cat_0_20240101_000000" : String)).length) ∧
    ((1 : ℚ) = 1 ∧
      trackIdOf "cat_0_20240101_000000_full" = trackIdOf "cat_0_20240101_000000" ∧
      (⟨1, 1, 11, 11⟩ : Rect) = ⟨1, 1, 11, 11⟩ ∧
      (2 : Int) = 2 ∧
      (none : Option Classification) = none ∧
      ((some ⟨"full", 1⟩ : Option Classification) = none →
        ("cat_0_20240101_000000_full" : String) = "cat_0_20240101_000000")) :=
  ⟨⟨by decide, by decide⟩,
    c10_updateTrack_frame ⟨[], []⟩
      ⟨⟨⟨1, 1, 11, 11⟩, (1 : ℚ) / 2, "cat"⟩, some ⟨"full", 1⟩, 2, 0, false⟩
      ⟨⟨⟨0, 0, 10, 10⟩, 1, "cat_0_20240101_000000"⟩, none, 2, 0, false⟩
      (⟨⟨⟨1, 1, 11, 11⟩, 1, "cat_0_20240101_000000_full"⟩, none, 2, 1, false⟩, false, ⟨[], []⟩)
      (by decide) (by decide)⟩

/-! ### C2: lost-buffer dedup lemmas -/

theorem removeFirstWithId_spec (id : String) (slot : List track)
    (hwf : ∀ tr ∈ slot, (getTrackingLabel tr).isSome = true) :
    ∃ r, removeFirstWithId id slot = some r ∧
      slotIds r = (slotIds slot).erase id ∧ r.Sublist slot := by
  induction slot with
  | nil => exact ⟨[], rfl, by simp [slotIds], List.Sublist.refl []⟩
  | cons d ds ih =>
    have hd := hwf d (List.mem_cons_self d ds)
    obtain ⟨did, hdid⟩ := Option.isSome_iff_exists.mp hd
    have hids : trackIdD d = did := by simp [trackIdD, hdid]
    unfold removeFirstWithId
    rw [hdid]
    dsimp only
    by_cases he : did = id
    · rw [if_pos he]
      refine ⟨ds, rfl, ?_, List.sublist_cons_self d ds⟩
      subst he
      simp [slotIds, hids]
    · rw [if_neg he]
      obtain ⟨r, hr, hridS, hrsub⟩ := ih (fun tr htr => hwf tr (List.mem_cons_of_mem d htr))
      rw [hr]
      refine ⟨d :: r, rfl, ?_, List.Sublist.cons₂ d hrsub⟩
      show trackIdD d :: slotIds r = (trackIdD d :: slotIds ds).erase id
      rw [hids, List.erase_cons_tail (by simp [he]), hridS]

theorem dedupSlots_spec (id : String) (slots : List (List track)) (hwf : SlotsWF slots) :
    ∃ slots2, dedupSlots id slots = some slots2 ∧
      List.Forall₂ (fun s s2 => slotIds s2 = (slotIds s).erase id ∧ s2.Sublist s)
        slots slots2 := by
  induction slots with
  | nil => exact ⟨[], rfl, List.Forall₂.nil⟩
  | cons slot rest ih =>
    obtain ⟨r, hr, hrid, hrsub⟩ :=
      removeFirstWithId_spec id slot (hwf slot (List.mem_cons_self slot rest))
    obtain ⟨rest2, hrest, hF⟩ := ih (fun s hs => hwf s (List.mem_cons_of_mem slot hs))
    refine ⟨r :: rest2, ?_, List.Forall₂.cons ⟨hrid, hrsub⟩ hF⟩
    unfold dedupSlots
    rw [hr, hrest]

theorem forall2_mem_right {P : List track → List track → Prop} :
    ∀ {l m : List (List track)}, List.Forall₂ P l m → ∀ b ∈ m, ∃ a ∈ l, P a b := by
  intro l m h
  induction h with
  | nil =>
    intro b hb
    exact absurd hb (List.not_mem_nil b)
  | cons hP hrest ih =>
    intro b hb
    rcases List.mem_cons.mp hb with h | h
    · subst h
      exact ⟨_, List.mem_cons_self _ _, hP⟩
    · obtain ⟨a, ha, hPa⟩ := ih b h
      exact ⟨a, List.mem_cons_of_mem _ ha, hPa⟩

theorem forall2_compose {P Q R : List track → List track → Prop} :
    ∀ {l m n : List (List track)}, List.Forall₂ P l m → List.Forall₂ Q m n →
      (∀ a b c, P a b → Q b c → R a c) → List.Forall₂ R l n := by
  intro l m n h1
  induction h1 generalizing n with
  | nil =>
    intro h2 _
    cases h2
    exact List.Forall₂.nil
  | cons hP hrest ih =>
    intro h2 hcomp
    cases h2 with
    | cons hQ h2rest => exact List.Forall₂.cons (hcomp _ _ _ hP hQ) (ih h2rest hcomp)

theorem dedupLoop_spec (dets : List track) (slots : List (List track))
    (hwfD : DetsWF dets) (hwfS : SlotsWF slots) :
    ∃ slots2, dedupLoop dets slots = some slots2 ∧
      List.Forall₂
        (fun s s2 => slotIds s2 = (slotIds s).diff (dets.map trackIdD) ∧ s2.Sublist s)
        slots slots2 := by
  induction dets generalizing slots with
  | nil =>
    refine ⟨slots, rfl, ?_⟩
    rw [List.forall₂_same]
    intro s _
    exact ⟨by simp, List.Sublist.refl s⟩
  | cons d ds ih =>
    have hd := hwfD d (List.mem_cons_self d ds)
    obtain ⟨did, hdid⟩ := Option.isSome_iff_exists.mp hd
    have hids : trackIdD d = did := by simp [trackIdD, hdid]
    obtain ⟨slots1, hs1, hF1⟩ := dedupSlots_spec did slots hwfS
    have hwfS1 : SlotsWF slots1 := by
      intro s2 hs2 tr htr
      obtain ⟨s, hs, hP⟩ := forall2_mem_right hF1 s2 hs2
      exact hwfS s hs tr (hP.2.subset htr)
    obtain ⟨slots2, hs2, hF2⟩ :=
      ih slots1 (fun tr htr => hwfD tr (List.mem_cons_of_mem d htr)) hwfS1
    refine ⟨slots2, ?_, ?_⟩
    · unfold dedupLoop
      rw [hdid]
      dsimp only
      rw [hs1]
      dsimp only
      rw [hs2]
    · refine forall2_compose hF1 hF2 ?_
      intro a b c hP hQ
      refine ⟨?_, hQ.2.trans hP.2⟩
      rw [hQ.1, hP.1]
      simp [hids]

theorem not_mem_diff_of_nodup {x : List String} (hx : x.Nodup) {I : List String} {a : String}
    (ha : a ∈ I) : a ∉ x.diff I := by
  induction I generalizing x with
  | nil => cases ha
  | cons i I2 ih =>
    rw [List.diff_cons]
    rcases List.mem_cons.mp ha with h | h
    · subst h
      intro hmem
      have hsub : a ∈ x.erase a := List.diff_subset (x.erase a) I2 hmem
      exact ((hx.mem_erase_iff).mp hsub).1 rfl
    · exact ih (hx.erase i) h

theorem forall2_ids_map {I : List String} {slots slots2 : List (List track)}
    (h : List.Forall₂ (fun s s2 => slotIds s2 = (slotIds s).diff I ∧ s2.Sublist s)
      slots slots2) :
    List.Forall₂ (fun x y => y = x.diff I) (slots.map slotIds) (slots2.map slotIds) := by
  induction h with
  | nil => exact List.Forall₂.nil
  | cons hP hrest ih => exact List.Forall₂.cons hP.1 ih

theorem flatten_subset_of_diff {I : List String} :
    ∀ {X Y : List (List String)}, List.Forall₂ (fun x y => y = x.diff I) X Y →
      Y.flatten ⊆ X.flatten := by
  intro X Y h
  induction h with
  | nil => simp
  | cons hP hrest ih =>
    rename_i x y X2 Y2
    simp only [List.flatten_cons]
    intro a ha
    rcases List.mem_append.mp ha with h1 | h1
    · rw [hP] at h1
      exact List.mem_append_left _ (List.diff_subset _ _ h1)
    · exact List.mem_append_right _ (ih h1)

theorem flatten_nodup_diff {I : List String} :
    ∀ {L L2 : List (List String)}, List.Forall₂ (fun x y => y = x.diff I) L L2 →
      L.flatten.Nodup → L2.flatten.Nodup ∧ ∀ a ∈ I, ∀ y ∈ L2, a ∉ y := by
  intro L L2 h
  induction h with
  | nil =>
    intro _
    exact ⟨by simp, by simp⟩
  | cons hP hrest ih =>
    rename_i x y X Y
    intro hN
    rw [List.flatten_cons, List.nodup_append] at hN
    obtain ⟨hx, hX, hdisj⟩ := hN
    obtain ⟨hYnodup, hInotin⟩ := ih hX
    constructor
    · rw [List.flatten_cons, List.nodup_append]
      refine ⟨by rw [hP]; exact hx.diff, hYnodup, ?_⟩
      intro a hay haY
      rw [hP] at hay
      exact hdisj (List.diff_subset _ _ hay) (flatten_subset_of_diff hrest haY)
    · intro a haI y2 hy2
      rcases List.mem_cons.mp hy2 with h | h
      · subst h
        rw [hP]
        exact not_mem_diff_of_nodup hx haI
      · exact hInotin a haI y2 h

theorem appendDets_core (dets0 : List (List track)) (newDets : List track)
    (hwfS0 : SlotsWF dets0) (hnodup0 : (bufIds dets0).Nodup) (hwf : DetsWF newDets)
    (hnd : (newDets.map trackIdD).Nodup) :
    ∃ slots2, dedupLoop newDets dets0 = some slots2 ∧
      slots2.length = dets0.length ∧
      SlotsWF (slots2 ++ [newDets]) ∧
      (bufIds (slots2 ++ [newDets])).Nodup ∧
      ∀ tr ∈ newDets, ∀ slot ∈ slots2, trackIdD tr ∉ slotIds slot := by
  obtain ⟨slots2, hrun, hF⟩ := dedupLoop_spec newDets dets0 hwf hwfS0
  have hmapF := forall2_ids_map hF
  have hIds := flatten_nodup_diff hmapF hnodup0
  refine ⟨slots2, hrun, hF.length_eq.symm, ?_, ?_, ?_⟩
  · intro s hs
    rcases List.mem_append.mp hs with h | h
    · obtain ⟨s0, hs0, hP⟩ := forall2_mem_right hF s h
      exact fun tr htr => hwfS0 s0 hs0 tr (hP.2.subset htr)
    · simp only [List.mem_singleton] at h
      subst h
      exact hwf
  · unfold bufIds
    rw [List.map_append, List.flatten_append]
    simp only [List.map_cons, List.map_nil, List.flatten_cons, List.flatten_nil,
      List.append_nil]
    rw [List.nodup_append]
    refine ⟨hIds.1, hnd, ?_⟩
    intro a ha haNew
    obtain ⟨y, hy, hay⟩ := List.mem_flatten.mp ha
    exact hIds.2 a haNew y hy hay
  · intro tr htr slot hslot
    have haI : trackIdD tr ∈ newDets.map trackIdD := List.mem_map_of_mem _ htr
    exact hIds.2 _ haI (slotIds slot) (List.mem_map_of_mem _ hslot)

/-- C2 counterexample: the dedup scan of `AppendDets` removes at most one
occurrence of an identity per slot and never de-duplicates the appended
list itself, so appending two lost tracks that share the `class_N` prefix
(`cat_0`) to a fresh buffer of capacity 2 leaves the same TrackId twice in
the buffer. -/
theorem c2_appendDets_cex :
    AppendDets (newTracksBuffer 2)
        [⟨⟨⟨0, 0, 10, 10⟩, 1, "cat_0_a"⟩, none, 2, 2, true⟩,
         ⟨⟨⟨5, 5, 15, 15⟩, 1, "cat_0_b"⟩, none, 2, 2, true⟩] =
      some ⟨[[⟨⟨⟨0, 0, 10, 10⟩, 1, "cat_0_a"⟩, none, 2, 2, true⟩,
              ⟨⟨⟨5, 5, 15, 15⟩, 1, "cat_0_b"⟩, none, 2, 2, true⟩]], 2⟩ ∧
    (bufIds [[⟨⟨⟨0, 0, 10, 10⟩, 1, "cat_0_a"⟩, none, 2, 2, true⟩,
              ⟨⟨⟨5, 5, 15, 15⟩, 1, "cat_0_b"⟩, none, 2, 2, true⟩]]).Nodup = False := by
  constructor
  · rfl
  · simp only [eq_iff_iff, iff_false]
    intro hnd
    have : bufIds [[⟨⟨⟨0, 0, 10, 10⟩, 1, "cat_0_a"⟩, none, 2, 2, true⟩,
        ⟨⟨⟨5, 5, 15, 15⟩, 1, "cat_0_b"⟩, none, 2, 2, true⟩]] = ["cat_0", "cat_0"] := by decide
    rw [this] at hnd
    simp at hnd

/-- C2 amended: provided the appended list of lost tracks carries pairwise
distinct (well-formed) TrackIds and the buffer satisfies its invariant —
at most `size` slots, well-formed labels, no TrackId twice across all
slots (which holds for every state reachable from `newTracksBuffer` by
such appends) — `AppendDets` succeeds, the invariant is preserved, and
every appended TrackId has been removed from every older slot. -/
theorem c2_appendDets_amended (b : tracksBuffer) (newDets : List track)
    (hsz : 1 ≤ b.size) (hgood : BufGood b) (hwf : DetsWF newDets)
    (hnd : (newDets.map trackIdD).Nodup) :
    ∃ b2, AppendDets b newDets = some b2 ∧ BufGood b2 ∧ b2.size = b.size ∧
      ∀ tr ∈ newDets, ∀ slot ∈ b2.detections.dropLast, trackIdD tr ∉ slotIds slot := by
  obtain ⟨hlen, hwfS, hnodup⟩ := hgood
  unfold AppendDets
  dsimp only
  by_cases hc : (b.detections.length : Int) = b.size
  · rw [if_pos hc]
    have hwfS0 : SlotsWF (b.detections.drop 1) :=
      fun s hs => hwfS s ((List.drop_sublist 1 _).subset hs)
    have hnodup0 : (bufIds (b.detections.drop 1)).Nodup := by
      cases hbd : b.detections with
      | nil => simp [bufIds]
      | cons hd tl =>
        rw [hbd] at hnodup
        unfold bufIds at hnodup ⊢
        rw [List.map_cons, List.flatten_cons, List.nodup_append] at hnodup
        simpa using hnodup.2.1
    obtain ⟨slots2, hrun, hlen2, hwf2, hnodup2, hremoved⟩ :=
      appendDets_core (b.detections.drop 1) newDets hwfS0 hnodup0 hwf hnd
    rw [hrun]
    refine ⟨⟨slots2 ++ [newDets], b.size⟩, rfl, ⟨?_, hwf2, hnodup2⟩, rfl, ?_⟩
    · have h1 : 1 ≤ b.detections.length := by
        by_contra hn
        have : b.detections.length = 0 := by omega
        rw [this] at hc
        omega
      have : (slots2 ++ [newDets]).length = b.detections.length := by
        rw [List.length_append, hlen2, List.length_drop]
        simp
        omega
      rw [this]
      exact le_of_eq hc
    · intro tr htr slot hslot
      rw [List.dropLast_concat] at hslot
      exact hremoved tr htr slot hslot
  · rw [if_neg hc]
    obtain ⟨slots2, hrun, hlen2, hwf2, hnodup2, hremoved⟩ :=
      appendDets_core b.detections newDets hwfS hnodup hwf hnd
    rw [hrun]
    refine ⟨⟨slots2 ++ [newDets], b.size⟩, rfl, ⟨?_, hwf2, hnodup2⟩, rfl, ?_⟩
    · rw [List.length_append, hlen2]
      simp only [List.length_singleton]
      push_cast
      omega
    · intro tr htr slot hslot
      rw [List.dropLast_concat] at hslot
      exact hremoved tr htr slot hslot

/-- Witness for C2 amended: a fresh buffer and two distinct lost tracks. -/
theorem c2_appendDets_amended_witness :
    ((1 : Int) ≤ 2 ∧ BufGood (newTracksBuffer 2) ∧
      DetsWF [⟨⟨⟨0, 0, 10, 10⟩, 1, "cat_0_a"⟩, none, 2, 2, true⟩,
        ⟨⟨⟨5, 5, 15, 15⟩, 1, "fish_0_b"⟩, none, 2, 2, true⟩] ∧
      (([⟨⟨⟨0, 0, 10, 10⟩, 1, "cat_0_a"⟩, none, 2, 2, true⟩,
        ⟨⟨⟨5, 5, 15, 15⟩, 1, "fish_0_b"⟩, none, 2, 2, true⟩] :
          List track).map trackIdD).Nodup) ∧
    (∃ b2, AppendDets (newTracksBuffer 2)
        [⟨⟨⟨0, 0, 10, 10⟩, 1, "cat_0_a"⟩, none, 2, 2, true⟩,
         ⟨⟨⟨5, 5, 15, 15⟩, 1, "fish_0_b"⟩, none, 2, 2, true⟩] = some b2 ∧
      BufGood b2 ∧ b2.size = 2 ∧
      ∀ tr ∈ ([⟨⟨⟨0, 0, 10, 10⟩, 1, "cat_0_a"⟩, none, 2, 2, true⟩,
        ⟨⟨⟨5, 5, 15, 15⟩, 1, "fish_0_b"⟩, none, 2, 2, true⟩] : List track),
        ∀ slot ∈ b2.detections.dropLast, trackIdD tr ∉ slotIds slot) :=
  ⟨⟨by decide, ⟨by decide, by unfold SlotsWF; decide, by decide⟩,
      by unfold DetsWF; decide, by decide⟩,
    c2_appendDets_amended (newTracksBuffer 2)
      [⟨⟨⟨0, 0, 10, 10⟩, 1, "cat_0_a"⟩, none, 2, 2, true⟩,
       ⟨⟨⟨5, 5, 15, 15⟩, 1, "fish_0_b"⟩, none, 2, 2, true⟩]
      (by decide) ⟨by decide, by unfold SlotsWF; decide, by decide⟩
      (by unfold DetsWF; decide) (by decide)⟩

/-! ### C1 and C6: the rename step treats zero-cost and guard-skipped
matches as unmatched -/

theorem matchLoop_cons_skip (mtx : List (List ℚ)) (oldDets newDets : List track)
    (idx : Nat) (j : Int) (rest : List Int) (acc : MatchAcc)
    (hskip : StepSkips mtx oldDets newDets idx j) :
    matchLoop mtx oldDets newDets idx (j :: rest) acc =
      matchLoop mtx oldDets newDets (idx + 1) rest acc := by
  obtain ⟨hj0, row, hrow, c, hc, hdisj⟩ := hskip
  have hne : ¬ j = -1 := by omega
  have hnlt : ¬ j < 0 := by omega
  rw [matchLoop]
  rw [if_neg hne, if_neg hnlt, hrow]
  dsimp only
  rw [hc]
  dsimp only
  by_cases hc0 : c = 0
  · rw [if_pos hc0]
  · rw [if_neg hc0]
    have hg := hdisj.resolve_left hc0
    by_cases hb : j.toNat < newDets.length ∧ idx < oldDets.length
    · rw [dif_pos hb]
      rw [if_pos (hg hb.1 hb.2)]
    · rw [dif_neg hb]

theorem matchLoop_set_skip (mtx : List (List ℚ)) (oldDets newDets : List track) :
    ∀ (i : Nat) (ms : List Int) (j : Int) (idx : Nat) (acc : MatchAcc),
      ms.get? i = some j → StepSkips mtx oldDets newDets (idx + i) j →
      matchLoop mtx oldDets newDets idx (ms.set i (-1)) acc =
        matchLoop mtx oldDets newDets idx ms acc := by
  intro i
  induction i with
  | zero =>
    intro ms j idx acc hget hskip
    cases ms with
    | nil => cases hget
    | cons m0 rest =>
      obtain rfl : m0 = j := by injection hget
      show matchLoop mtx oldDets newDets idx (-1 :: rest) acc =
        matchLoop mtx oldDets newDets idx (m0 :: rest) acc
      have hskip0 : StepSkips mtx oldDets newDets idx m0 := by
        have h0 : idx + 0 = idx := by omega
        rw [h0] at hskip
        exact hskip
      rw [matchLoop_cons_skip mtx oldDets newDets idx m0 rest acc hskip0]
      rw [matchLoop]
      rw [if_pos rfl]
  | succ i2 ih =>
    intro ms j idx acc hget hskip
    cases ms with
    | nil => cases hget
    | cons m0 rest =>
      have hget2 : rest.get? i2 = some j := hget
      have hskip2 : StepSkips mtx oldDets newDets ((idx + 1) + i2) j := by
        have h0 : (idx + 1) + i2 = idx + (i2 + 1) := by omega
        rw [h0]
        exact hskip
      show matchLoop mtx oldDets newDets idx (m0 :: rest.set i2 (-1)) acc =
        matchLoop mtx oldDets newDets idx (m0 :: rest) acc
      rw [matchLoop, matchLoop]
      by_cases h1 : m0 = -1
      · rw [if_pos h1, if_pos h1]
        exact ih rest j (idx + 1) acc hget2 hskip2
      · rw [if_neg h1, if_neg h1]
        by_cases h2 : m0 < 0
        · rw [if_pos h2, if_pos h2]
        · rw [if_neg h2, if_neg h2]
          cases hrow0 : mtx[idx]? with
          | none => rfl
          | some row0 =>
            dsimp only
            cases hc0 : row0[m0.toNat]? with
            | none => rfl
            | some c0 =>
              dsimp only
              by_cases hz : c0 = 0
              · rw [if_pos hz, if_pos hz]
                exact ih rest j (idx + 1) acc hget2 hskip2
              · rw [if_neg hz, if_neg hz]
                by_cases hb : m0.toNat < newDets.length ∧ idx < oldDets.length
                · rw [dif_pos hb, dif_pos hb]
                  by_cases hgd : classifGuard (oldDets.get ⟨idx, hb.2⟩)
                      (newDets.get ⟨m0.toNat, hb.1⟩) = true
                  · rw [if_pos hgd, if_pos hgd]
                    exact ih rest j (idx + 1) acc hget2 hskip2
                  · rw [if_neg hgd, if_neg hgd]
                    cases hup : UpdateTrack acc.st (newDets.get ⟨m0.toNat, hb.1⟩)
                        (oldDets.get ⟨idx, hb.2⟩) with
                    | none => rfl
                    | some r =>
                      dsimp only
                      exact ih rest j (idx + 1) _ hget2 hskip2
                · rw [dif_neg hb, dif_neg hb]
                  exact ih rest j (idx + 1) acc hget2 hskip2

theorem renameFromMatches_set_skip (st : TrackerState) (ts : String) (ms : List Int)
    (mtx : List (List ℚ)) (oldDets newDets : List track) (i : Nat) (j : Int)
    (hget : ms.get? i = some j) (hskip : StepSkips mtx oldDets newDets i j) :
    RenameFromMatches st ts (ms.set i (-1)) mtx oldDets newDets =
      RenameFromMatches st ts ms mtx oldDets newDets := by
  unfold RenameFromMatches
  rw [matchLoop_set_skip mtx oldDets newDets i ms j 0 _ hget (by simpa using hskip)]

theorem matchLoop_notUsed_mem (mtx : List (List ℚ)) (oldDets newDets : List track) :
    ∀ (ms : List Int) (idx : Nat) (acc : MatchAcc) (res : MatchAcc),
      matchLoop mtx oldDets newDets idx ms acc = some res →
      ∀ jn : Nat, jn ∈ acc.notUsed → (jn : Int) ∉ ms → jn ∈ res.notUsed := by
  intro ms
  induction ms with
  | nil =>
    intro idx acc res h jn hmem _
    obtain rfl : acc = res := by injection h
    exact hmem
  | cons m0 rest ih =>
    intro idx acc res h jn hmem hnotin
    have hne : (jn : Int) ≠ m0 := fun he => hnotin (he ▸ List.mem_cons_self m0 rest)
    have hnotin2 : (jn : Int) ∉ rest := fun hm => hnotin (List.mem_cons_of_mem m0 hm)
    rw [matchLoop] at h
    by_cases h1 : m0 = -1
    · rw [if_pos h1] at h
      exact ih (idx + 1) acc res h jn hmem hnotin2
    · rw [if_neg h1] at h
      by_cases h2 : m0 < 0
      · rw [if_pos h2] at h
        cases h
      · rw [if_neg h2] at h
        cases hrow0 : mtx[idx]? with
        | none =>
          rw [hrow0] at h
          cases h
        | some row0 =>
          rw [hrow0] at h
          dsimp only at h
          cases hc0 : row0[m0.toNat]? with
          | none =>
            rw [hc0] at h
            cases h
          | some c0 =>
            rw [hc0] at h
            dsimp only at h
            by_cases hz : c0 = 0
            · rw [if_pos hz] at h
              exact ih (idx + 1) acc res h jn hmem hnotin2
            · rw [if_neg hz] at h
              by_cases hb : m0.toNat < newDets.length ∧ idx < oldDets.length
              · rw [dif_pos hb] at h
                by_cases hgd : classifGuard (oldDets.get ⟨idx, hb.2⟩)
                    (newDets.get ⟨m0.toNat, hb.1⟩) = true
                · rw [if_pos hgd] at h
                  exact ih (idx + 1) acc res h jn hmem hnotin2
                · rw [if_neg hgd] at h
                  cases hup : UpdateTrack acc.st (newDets.get ⟨m0.toNat, hb.1⟩)
                      (oldDets.get ⟨idx, hb.2⟩) with
                  | none =>
                    rw [hup] at h
                    cases h
                  | some r =>
                    rw [hup] at h
                    dsimp only at h
                    refine ih (idx + 1) _ res h jn ?_ hnotin2
                    dsimp only
                    refine List.mem_erase_of_ne ?_ |>.mpr hmem
                    intro he
                    apply hne
                    rw [he, Int.toNat_of_nonneg (by omega)]
              · rw [dif_neg hb] at h
                exact ih (idx + 1) acc res h jn hmem hnotin2

theorem freshLoop_mem (ts : String) (newDets : List track) :
    ∀ (l : List Nat) (st : TrackerState) (fresh : List track) (st2 : TrackerState),
      freshLoop ts newDets l st = some (fresh, st2) →
      ∀ jn ∈ l, ∃ d stb, newDets[jn]? = some d ∧ (RenameFirstTime stb ts d).1 ∈ fresh := by
  intro l
  induction l with
  | nil =>
    intro st fresh st2 _ jn hjn
    exact absurd hjn (List.not_mem_nil jn)
  | cons idx rest ih =>
    intro st fresh st2 h jn hjn
    rw [freshLoop] at h
    cases hd : newDets[idx]? with
    | none =>
      rw [hd] at h
      cases h
    | some d =>
      rw [hd] at h
      dsimp only at h
      cases hrec : freshLoop ts newDets rest (RenameFirstTime st ts d).2 with
      | none =>
        rw [hrec] at h
        cases h
      | some p =>
        rw [hrec] at h
        dsimp only at h
        obtain ⟨hfresh, hst⟩ : (RenameFirstTime st ts d).1 :: p.1 = fresh ∧ p.2 = st2 := by
          obtain ⟨p1, p2⟩ := p
          injection h with h
          injection h with h1 h2
          exact ⟨h1, h2⟩
        rcases List.mem_cons.mp hjn with he | he
        · subst he
          exact ⟨d, st, hd, by rw [← hfresh]; exact List.mem_cons_self _ _⟩
        · obtain ⟨d2, stb, hd2, hmem⟩ := ih (RenameFirstTime st ts d).2 p.1 p.2
            (by rw [hrec]) jn he
          exact ⟨d2, stb, hd2, by rw [← hfresh]; exact List.mem_cons_of_mem _ hmem⟩

theorem lostLoop_spec (ms : List Int) :
    ∀ (dets : List track) (idx : Nat) (st : TrackerState)
      (res : List track × TrackerState),
      lostLoop st dets ms idx = some res → res.1 = lostSpecFrom ms idx dets := by
  intro dets
  induction dets with
  | nil =>
    intro idx st res h
    obtain rfl : (([], st) : List track × TrackerState) = res := by injection h
    rfl
  | cons tr rest ih =>
    intro idx st res h
    rw [lostLoop] at h
    cases hm : ms[idx]? with
    | none =>
      rw [hm] at h
      cases h
    | some m =>
      rw [hm] at h
      dsimp only at h
      have hgetD : ms.getD idx 0 = m := by
        unfold List.getD
        rw [List.get?_eq_getElem?, hm]
        rfl
      by_cases h1 : m = -1
      · rw [if_pos h1] at h
        by_cases hs : tr.stable = true
        · rw [if_pos hs] at h
          cases hrec : lostLoop st rest ms (idx + 1) with
          | none =>
            rw [hrec] at h
            cases h
          | some p =>
            rw [hrec] at h
            dsimp only at h
            obtain rfl : ((tr :: p.1, p.2) : List track × TrackerState) = res := by
              obtain ⟨p1, p2⟩ := p
              injection h
            show tr :: p.1 = lostSpecFrom ms idx (tr :: rest)
            rw [lostSpecFrom, if_pos ⟨by rw [hgetD]; exact h1, hs⟩]
            rw [ih (idx + 1) st p hrec]
        · rw [if_neg hs] at h
          cases hg : getTrackingLabel tr with
          | none =>
            rw [hg] at h
            cases h
          | some cl =>
            rw [hg] at h
            dsimp only at h
            rw [lostSpecFrom, if_neg (by intro hand; exact hs hand.2)]
            exact ih (idx + 1) _ res h
      · rw [if_neg h1] at h
        rw [lostSpecFrom, if_neg (by intro hand; exact h1 (by rw [← hgetD]; exact hand.1))]
        exact ih (idx + 1) st res h

theorem not_mem_set_of_unique (ms : List Int) (i : Nat) (j : Int) (hj : j ≠ -1)
    (huniq : ∀ i2, ms.get? i2 = some j → i2 = i) : j ∉ ms.set i (-1) := by
  intro hmem
  obtain ⟨k, hklt, hk⟩ := List.getElem_of_mem hmem
  by_cases hki : k = i
  · subst hki
    rw [List.getElem_set_self] at hk
    exact hj hk.symm
  · have hke : (ms.set i (-1))[k]? = some j := by
      rw [List.getElem?_eq_getElem hklt, hk]
    rw [List.getElem?_set_ne (fun he => hki he.symm)] at hke
    refine hki (huniq k ?_)
    rw [List.get?_eq_getElem?]
    exact hke

/-- C1 amended: a solver match `(i, j)` whose cost cell is exactly zero is
rejected by the rename step exactly as if row `i` were unmatched — the
whole of `RenameFromMatches` (outputs and state) is unchanged when
`matches[i]` is replaced by `-1`, and column `j` is minted a fresh
identity by `RenameFirstTime` (when no other row matches `j`).  But the
run loop's lost computation tests only `matches[idx] == -1`, so the
zero-cost-rejected row `i` is NOT treated as lost: the lost list contains
exactly the rows whose `matches` entry is `-1` and whose track is stable,
and row `i` is not among them. -/
theorem c1_zero_cost_amended (st : TrackerState) (ts : String) (ms : List Int)
    (mtx : List (List ℚ)) (oldDets newDets : List track) (i : Nat) (j : Int)
    (row : List ℚ)
    (hget : ms.get? i = some j) (hj0 : 0 ≤ j)
    (hrow : mtx[i]? = some row) (hc : row[j.toNat]? = some 0)
    (hlen : j.toNat < newDets.length)
    (huniq : ∀ i2, ms.get? i2 = some j → i2 = i) :
    RenameFromMatches st ts (ms.set i (-1)) mtx oldDets newDets =
      RenameFromMatches st ts ms mtx oldDets newDets ∧
    (∀ r, RenameFromMatches st ts ms mtx oldDets newDets = some r →
      ∃ d stb, newDets[j.toNat]? = some d ∧ (RenameFirstTime stb ts d).1 ∈ r.2.2.1) ∧
    (∀ (st0 : TrackerState) (lastDets : List track) (res : List track × TrackerState),
      lostLoop st0 lastDets ms 0 = some res → res.1 = lostSpecFrom ms 0 lastDets) := by
  have hskip : StepSkips mtx oldDets newDets i j := ⟨hj0, row, hrow, 0, hc, Or.inl rfl⟩
  have heq := renameFromMatches_set_skip st ts ms mtx oldDets newDets i j hget hskip
  refine ⟨heq, ?_, fun st0 lastDets res h => lostLoop_spec ms lastDets 0 st0 res h⟩
  intro r hrun
  rw [← heq] at hrun
  unfold RenameFromMatches at hrun
  cases hacc : matchLoop mtx oldDets newDets 0 (ms.set i (-1))
      ⟨[], [], List.range newDets.length, st⟩ with
  | none =>
    rw [hacc] at hrun
    cases hrun
  | some acc =>
    rw [hacc] at hrun
    dsimp only at hrun
    cases hfl : freshLoop ts newDets acc.notUsed acc.st with
    | none =>
      rw [hfl] at hrun
      cases hrun
    | some p =>
      rw [hfl] at hrun
      dsimp only at hrun
      have hnotin : ((j.toNat : Nat) : Int) ∉ ms.set i (-1) := by
        rw [Int.toNat_of_nonneg hj0]
        exact not_mem_set_of_unique ms i j (by omega) huniq
      have hmem := matchLoop_notUsed_mem mtx oldDets newDets (ms.set i (-1)) 0 _ acc hacc
        j.toNat (by simpa using hlen) hnotin
      obtain ⟨p1, p2⟩ := p
      obtain ⟨d, stb, hd, hin⟩ :=
        freshLoop_mem ts newDets acc.notUsed acc.st p1 p2 hfl j.toNat hmem
      refine ⟨d, stb, hd, ?_⟩
      obtain rfl : (acc.updated, acc.newlyStable, p1, p2) = r := by injection hrun
      exact hin

/-- Witness for C1 amended at a concrete zero-cost match. -/
theorem c1_zero_cost_amended_witness :
    (([(0 : Int)] : List Int).get? 0 = some 0 ∧ (0 : Int) ≤ 0 ∧
      ([[(0 : ℚ)]] : List (List ℚ))[0]? = some [(0 : ℚ)] ∧
      ([(0 : ℚ)] : List ℚ)[(0 : Int).toNat]? = some 0 ∧
      (0 : Int).toNat < ([⟨⟨⟨50, 50, 60, 60⟩, 1, "cat"⟩, none, 2, 0, false⟩] :
        List track).length) ∧
    (RenameFromMatches ⟨[], []⟩ "ts" (([(0 : Int)] : List Int).set 0 (-1)) [[(0 : ℚ)]]
        [⟨⟨⟨0, 0, 10, 10⟩, 1, "cat_0_x"⟩, none, 2, 2, true⟩]
        [⟨⟨⟨50, 50, 60, 60⟩, 1, "cat"⟩, none, 2, 0, false⟩] =
      RenameFromMatches ⟨[], []⟩ "ts" [(0 : Int)] [[(0 : ℚ)]]
        [⟨⟨⟨0, 0, 10, 10⟩, 1, "cat_0_x"⟩, none, 2, 2, true⟩]
        [⟨⟨⟨50, 50, 60, 60⟩, 1, "cat"⟩, none, 2, 0, false⟩] ∧
    (∀ r, RenameFromMatches ⟨[], []⟩ "ts" [(0 : Int)] [[(0 : ℚ)]]
        [⟨⟨⟨0, 0, 10, 10⟩, 1, "cat_0_x"⟩, none, 2, 2, true⟩]
        [⟨⟨⟨50, 50, 60, 60⟩, 1, "cat"⟩, none, 2, 0, false⟩] = some r →
      ∃ d stb, ([⟨⟨⟨50, 50, 60, 60⟩, 1, "cat"⟩, none, 2, 0, false⟩] :
          List track)[(0 : Int).toNat]? = some d ∧
        (RenameFirstTime stb "ts" d).1 ∈ r.2.2.1) ∧
    (∀ (st0 : TrackerState) (lastDets : List track) (res : List track × TrackerState),
      lostLoop st0 lastDets [(0 : Int)] 0 = some res →
        res.1 = lostSpecFrom [(0 : Int)] 0 lastDets)) :=
  ⟨⟨by decide, by decide, by decide, by decide, by decide⟩,
    c1_zero_cost_amended ⟨[], []⟩ "ts" [(0 : Int)] [[(0 : ℚ)]]
      [⟨⟨⟨0, 0, 10, 10⟩, 1, "cat_0_x"⟩, none, 2, 2, true⟩]
      [⟨⟨⟨50, 50, 60, 60⟩, 1, "cat"⟩, none, 2, 0, false⟩] 0 0 [(0 : ℚ)]
      (by decide) (by decide) (by decide) (by decide) (by decide)
      (fun i2 h => by
        cases i2 with
        | zero => rfl
        | succ n => cases h)⟩

/-- C1 counterexample: with one stable live track whose row the solver
matches to the only column at cost zero (`M[0][0] = 0`), the claim says the
track counts as lost and (being stable) is appended to the lost buffer;
the run loop's lost computation, which tests only `matches[idx] == -1`,
collects nothing. -/
theorem c1_zero_cost_cex :
    (([[(0 : ℚ)]] : List (List ℚ))[0]?.getD [])[(0 : Int).toNat]?.getD 1 = 0 ∧
    (⟨⟨⟨0, 0, 10, 10⟩, 1, "cat_0_x"⟩, none, 2, 2, true⟩ : track).stable = true ∧
    lostLoop ⟨[], []⟩ [⟨⟨⟨0, 0, 10, 10⟩, 1, "cat_0_x"⟩, none, 2, 2, true⟩]
      [(0 : Int)] 0 = some ([], ⟨[], []⟩) := by
  refine ⟨by decide, by decide, by decide⟩

/-- C6: in the richer variant, a nonzero-cost solver match `(i, j)` whose
old track is stable and classified "partial" while the new detection is
classified "full" is skipped by `RenameFromMatches`: the step behaves
exactly as if row `i` were unmatched (`matches[i] = -1`), so the old track
is not updated and column `j` stays unmatched; the detection at `j` is
therefore minted a brand-new identity by `RenameFirstTime` (when no other
row matches `j`). -/
theorem c6_classification_guard_skips (st : TrackerState) (ts : String) (ms : List Int)
    (mtx : List (List ℚ)) (oldDets newDets : List track) (i : Nat) (j : Int)
    (row : List ℚ) (c : ℚ) (old new : track) (co cn : Classification)
    (hget : ms.get? i = some j) (hj0 : 0 ≤ j)
    (hrow : mtx[i]? = some row) (hc : row[j.toNat]? = some c) (hc0 : c ≠ 0)
    (hold : oldDets[i]? = some old) (hnew : newDets[j.toNat]? = some new)
    (hstable : old.stable = true)
    (hco : old.detClassification = some co) (hcol : co.label = "partial")
    (hcn : new.detClassification = some cn) (hcnl : cn.label = "full")
    (huniq : ∀ i2, ms.get? i2 = some j → i2 = i) :
    RenameFromMatches st ts (ms.set i (-1)) mtx oldDets newDets =
      RenameFromMatches st ts ms mtx oldDets newDets ∧
    (∀ r, RenameFromMatches st ts ms mtx oldDets newDets = some r →
      ∃ stb, (RenameFirstTime stb ts new).1 ∈ r.2.2.1) := by
  obtain ⟨hilt, hival⟩ := List.getElem?_eq_some_iff.mp hold
  obtain ⟨hjlt, hjval⟩ := List.getElem?_eq_some_iff.mp hnew
  have hskip : StepSkips mtx oldDets newDets i j := by
    refine ⟨hj0, row, hrow, c, hc, Or.inr ?_⟩
    intro h1 h2
    have hgo : oldDets.get ⟨i, h2⟩ = old := by
      rw [List.get_eq_getElem]
      exact hival
    have hgn : newDets.get ⟨j.toNat, h1⟩ = new := by
      rw [List.get_eq_getElem]
      exact hjval
    rw [hgo, hgn]
    unfold classifGuard
    rw [hco, hcn]
    simp [hstable, hcol, hcnl]
  have heq := renameFromMatches_set_skip st ts ms mtx oldDets newDets i j hget hskip
  refine ⟨heq, ?_⟩
  intro r hrun
  rw [← heq] at hrun
  unfold RenameFromMatches at hrun
  cases hacc : matchLoop mtx oldDets newDets 0 (ms.set i (-1))
      ⟨[], [], List.range newDets.length, st⟩ with
  | none =>
    rw [hacc] at hrun
    cases hrun
  | some acc =>
    rw [hacc] at hrun
    dsimp only at hrun
    cases hfl : freshLoop ts newDets acc.notUsed acc.st with
    | none =>
      rw [hfl] at hrun
      cases hrun
    | some p =>
      rw [hfl] at hrun
      dsimp only at hrun
      have hne : j ≠ -1 := by omega
      have hnotin : ((j.toNat : Nat) : Int) ∉ ms.set i (-1) := by
        rw [Int.toNat_of_nonneg hj0]
        exact not_mem_set_of_unique ms i j hne huniq
      have hmem := matchLoop_notUsed_mem mtx oldDets newDets (ms.set i (-1)) 0 _ acc hacc
        j.toNat (by simpa using hjlt) hnotin
      obtain ⟨p1, p2⟩ := p
      obtain ⟨d, stb, hd, hin⟩ :=
        freshLoop_mem ts newDets acc.notUsed acc.st p1 p2 hfl j.toNat hmem
      obtain rfl : d = new := by
        rw [hnew] at hd
        injection hd with h
        exact h.symm
      refine ⟨stb, ?_⟩
      obtain rfl : (acc.updated, acc.newlyStable, p1, p2) = r := by injection hrun
      exact hin

/-- Witness for C6 at a concrete stable "partial" track matched to a
"full" detection with nonzero cost. -/
theorem c6_classification_guard_skips_witness :
    (([(0 : Int)] : List Int).get? 0 = some 0 ∧ (0 : Int) ≤ 0 ∧
      ([[(-1 : ℚ)]] : List (List ℚ))[0]? = some [(-1 : ℚ)] ∧
      ([(-1 : ℚ)] : List ℚ)[(0 : Int).toNat]? = some (-1) ∧ ((-1 : ℚ) ≠ 0) ∧
      ([⟨⟨⟨0, 0, 10, 10⟩, 1, "pizza_0_x"⟩, some ⟨"partial", 1⟩, 2, 2, true⟩] :
        List track)[0]? =
        some ⟨⟨⟨0, 0, 10, 10⟩, 1, "pizza_0_x"⟩, some ⟨"partial", 1⟩, 2, 2, true⟩ ∧
      ([⟨⟨⟨1, 1, 11, 11⟩, 1, "pizza"⟩, some ⟨"full", 1⟩, 2, 0, false⟩] :
        List track)[(0 : Int).toNat]? =
        some ⟨⟨⟨1, 1, 11, 11⟩, 1, "pizza"⟩, some ⟨"full", 1⟩, 2, 0, false⟩) ∧
    (RenameFromMatches ⟨[], []⟩ "ts" (([(0 : Int)] : List Int).set 0 (-1)) [[(-1 : ℚ)]]
        [⟨⟨⟨0, 0, 10, 10⟩, 1, "pizza_0_x"⟩, some ⟨"partial", 1⟩, 2, 2, true⟩]
        [⟨⟨⟨1, 1, 11, 11⟩, 1, "pizza"⟩, some ⟨"full", 1⟩, 2, 0, false⟩] =
      RenameFromMatches ⟨[], []⟩ "ts" [(0 : Int)] [[(-1 : ℚ)]]
        [⟨⟨⟨0, 0, 10, 10⟩, 1, "pizza_0_x"⟩, some ⟨"partial", 1⟩, 2, 2, true⟩]
        [⟨⟨⟨1, 1, 11, 11⟩, 1, "pizza"⟩, some ⟨"full", 1⟩, 2, 0, false⟩] ∧
    (∀ r, RenameFromMatches ⟨[], []⟩ "ts" [(0 : Int)] [[(-1 : ℚ)]]
        [⟨⟨⟨0, 0, 10, 10⟩, 1, "pizza_0_x"⟩, some ⟨"partial", 1⟩, 2, 2, true⟩]
        [⟨⟨⟨1, 1, 11, 11⟩, 1, "pizza"⟩, some ⟨"full", 1⟩, 2, 0, false⟩] = some r →
      ∃ stb, (RenameFirstTime stb "ts"
        ⟨⟨⟨1, 1, 11, 11⟩, 1, "pizza"⟩, some ⟨"full", 1⟩, 2, 0, false⟩).1 ∈ r.2.2.1)) :=
  ⟨⟨by decide, by decide, by decide, by decide, by decide, by decide, by decide⟩,
    c6_classification_guard_skips ⟨[], []⟩ "ts" [(0 : Int)] [[(-1 : ℚ)]]
      [⟨⟨⟨0, 0, 10, 10⟩, 1, "pizza_0_x"⟩, some ⟨"partial", 1⟩, 2, 2, true⟩]
      [⟨⟨⟨1, 1, 11, 11⟩, 1, "pizza"⟩, some ⟨"full", 1⟩, 2, 0, false⟩] 0 0 [(-1 : ℚ)] (-1)
      ⟨⟨⟨0, 0, 10, 10⟩, 1, "pizza_0_x"⟩, some ⟨"partial", 1⟩, 2, 2, true⟩
      ⟨⟨⟨1, 1, 11, 11⟩, 1, "pizza"⟩, some ⟨"full", 1⟩, 2, 0, false⟩
      ⟨"partial", 1⟩ ⟨"full", 1⟩
      (by decide) (by decide) (by decide) (by decide) (by decide) (by decide) (by decide)
      (by decide) (by decide) (by decide) (by decide) (by decide)
      (fun i2 h => by
        cases i2 with
        | zero => rfl
        | succ n => cases h)⟩
